import Mathlib

/-!
Verification of the correction engine in
`chrome-extension/lib/grammar-checker.js` (class `GrammarChecker`).

The JavaScript source is shallowly embedded over `List Char` / `String`:

* `spellingCorrections` (the dictionary object literal) becomes `dictL`;
  JS property lookup on an object literal also sees `Object.prototype`,
  whose only all-lowercase property names are `constructor` and
  `__proto__`, so `jsLookup` models that fall-through.
* `split(/\b/)` becomes `runsBy isWordChar` (maximal runs of word /
  non-word characters, `\w = [A-Za-z0-9_]`).
* `split(/(\s+)/)` becomes `splitWsJs`.
* `toLowerCase` / `toUpperCase` / `trim` are modelled on the ASCII
  range, which is exact for every comparison the engine performs
  (dictionary keys and rule literals are all ASCII).
* the six grammar regexes are embedded as explicit matchers with the
  semantics of the JS engine on these patterns (leftmost scan, ordered
  alternation, greedy `\s+` with the one backtracking step that
  `[^aeiou]` allows, case-insensitive matching, `\b` tests).
* a thrown `TypeError` is modelled as `Except.error ()`.
-/

deriving instance DecidableEq for Except

/-- JS `\w` (word character) class: `[A-Za-z0-9_]`. -/
def isWordChar (c : Char) : Bool :=
  ('a' ≤ c && c ≤ 'z') || ('A' ≤ c && c ≤ 'Z') || ('0' ≤ c && c ≤ '9') || c = '_'

/-- ASCII whitespace recognised by JS `\s` (the Unicode additions are
irrelevant to every string the claims touch). -/
def isJsWs (c : Char) : Bool :=
  c = ' ' || c = '\t' || c = '\n' || c = '\r' || c = '\x0b' || c = '\x0c'

/-- ASCII model of `String.prototype.toLowerCase`, written as an explicit
26-way match so proofs can case on it without character arithmetic. -/
def jsToLower (c : Char) : Char :=
  match c with
  | 'A' => 'a' | 'B' => 'b' | 'C' => 'c' | 'D' => 'd' | 'E' => 'e' | 'F' => 'f'
  | 'G' => 'g' | 'H' => 'h' | 'I' => 'i' | 'J' => 'j' | 'K' => 'k' | 'L' => 'l'
  | 'M' => 'm' | 'N' => 'n' | 'O' => 'o' | 'P' => 'p' | 'Q' => 'q' | 'R' => 'r'
  | 'S' => 's' | 'T' => 't' | 'U' => 'u' | 'V' => 'v' | 'W' => 'w' | 'X' => 'x'
  | 'Y' => 'y' | 'Z' => 'z'
  | c => c

/-- ASCII model of `String.prototype.toUpperCase`. -/
def jsToUpper (c : Char) : Char :=
  match c with
  | 'a' => 'A' | 'b' => 'B' | 'c' => 'C' | 'd' => 'D' | 'e' => 'E' | 'f' => 'F'
  | 'g' => 'G' | 'h' => 'H' | 'i' => 'I' | 'j' => 'J' | 'k' => 'K' | 'l' => 'L'
  | 'm' => 'M' | 'n' => 'N' | 'o' => 'O' | 'p' => 'P' | 'q' => 'Q' | 'r' => 'R'
  | 's' => 'S' | 't' => 'T' | 'u' => 'U' | 'v' => 'V' | 'w' => 'W' | 'x' => 'X'
  | 'y' => 'Y' | 'z' => 'Z'
  | c => c

/-- Case-insensitive character comparison, as the `i` regex flag folds. -/
def ciEq (a c : Char) : Bool := jsToLower a = jsToLower c

/-- `a`, `e`, `i`, `o`, `u` in either case (the `[aeiou]` class under `/i`). -/
def isVowelCI (c : Char) : Bool :=
  jsToLower c = 'a' || jsToLower c = 'e' || jsToLower c = 'i' ||
  jsToLower c = 'o' || jsToLower c = 'u'

theorem jsToLower_ws (c : Char) : isJsWs (jsToLower c) = isJsWs c := by
  unfold jsToLower; split <;> first | decide | rfl

theorem jsToLower_word (c : Char) : isWordChar (jsToLower c) = isWordChar c := by
  unfold jsToLower; split <;> first | decide | rfl

theorem jsToUpper_word (c : Char) : isWordChar (jsToUpper c) = isWordChar c := by
  unfold jsToUpper; split <;> first | decide | rfl

/-- If `c` case-folds to a non-whitespace character then `c` is not whitespace. -/
theorem not_ws_of_ciEq (a c : Char) (ha : isJsWs (jsToLower a) = false)
    (h : ciEq a c = true) : isJsWs c = false := by
  unfold ciEq at h
  rw [← jsToLower_ws c, ← of_decide_eq_true h, ha]

/-- A case-insensitively matched letter is a word character. -/
theorem word_of_ciEq (a c : Char) (ha : isWordChar (jsToLower a) = true)
    (h : ciEq a c = true) : isWordChar c = true := by
  unfold ciEq at h
  rw [← jsToLower_word c, ← of_decide_eq_true h, ha]

/-- Vowels (case-insensitively) are never whitespace. -/
theorem not_ws_of_vowel (c : Char) (h : isVowelCI c = true) : isJsWs c = false := by
  unfold isVowelCI at h
  rw [← jsToLower_ws c]
  simp only [Bool.or_eq_true, decide_eq_true_eq] at h
  rcases h with ((((h | h) | h) | h) | h) <;> rw [h] <;> decide

/-- Whitespace is never case-insensitively equal to a letter. -/
theorem not_ciEq_of_ws (a c : Char) (ha : isJsWs (jsToLower a) = false)
    (h : isJsWs c = true) : ciEq a c = false := by
  by_contra hc
  rw [not_ws_of_ciEq a c ha (Bool.of_not_eq_false hc)] at h
  exact Bool.false_ne_true h

/-- Maximal runs of characters agreeing on `f`; this is how the engine's
`text.split(/\b/)` decomposes a string (`f = isWordChar`), and the base
decomposition of `split(/(\s+)/)` (`f = isJsWs`). -/
def runsBy (f : Char → Bool) : List Char → List (List Char)
  | [] => []
  | c :: cs =>
    match runsBy f cs with
    | [] => [[c]]
    | [] :: ts => [c] :: ts
    | (d :: t) :: ts =>
      if f c = f d then (c :: d :: t) :: ts else [c] :: (d :: t) :: ts

/-- Concatenation of a token list, the engine's `.join('')`. -/
def joinL (ts : List (List Char)) : List Char := ts.foldr (· ++ ·) []

@[simp] theorem joinL_nil : joinL [] = [] := rfl

@[simp] theorem joinL_cons (t : List Char) (ts : List (List Char)) :
    joinL (t :: ts) = t ++ joinL ts := rfl

/-- The head run of `runsBy` on a cons starts with that character. -/
theorem runsBy_cons_shape (f : Char → Bool) (c : Char) (cs : List Char) :
    ∃ t ts, runsBy f (c :: cs) = (c :: t) :: ts := by
  unfold runsBy
  rcases h : runsBy f cs with _ | ⟨t0, ts0⟩
  · exact ⟨[], [], rfl⟩
  · rcases t0 with _ | ⟨d, t⟩
    · exact ⟨[], ts0, rfl⟩
    · by_cases hfc : f c = f d
      · exact ⟨d :: t, ts0, by simp [hfc]⟩
      · exact ⟨[], (d :: t) :: ts0, by simp [hfc]⟩

/-- Tokenisation is lossless: the runs concatenate back to the input. -/
theorem joinL_runsBy (f : Char → Bool) (l : List Char) :
    joinL (runsBy f l) = l := by
  induction l with
  | nil => rfl
  | cons c cs ih =>
    unfold runsBy
    rcases h : runsBy f cs with _ | ⟨t0, ts0⟩
    · rw [h] at ih
      simp only [joinL_cons, joinL_nil] at ih ⊢
      simp [← ih]
    · rcases t0 with _ | ⟨d, t⟩
      · rw [h] at ih
        simp only [joinL_cons] at ih ⊢
        simpa using ih
      · rw [h] at ih
        by_cases hfc : f c = f d
        · simp only [hfc, if_pos rfl] at *
          simp only [joinL_cons] at ih ⊢
          simp [← ih]
        · simp only [if_neg hfc]
          simp only [joinL_cons] at ih ⊢
          simp [← ih]

/-- A homogeneous non-empty string is a single run. -/
theorem runsBy_single (f : Char → Bool) (c : Char) (cs : List Char)
    (h : ∀ a ∈ c :: cs, f a = f c) : runsBy f (c :: cs) = [c :: cs] := by
  induction cs generalizing c with
  | nil => rfl
  | cons d cs' ih =>
    have hd : f d = f c := h d (by simp)
    have hrec : runsBy f (d :: cs') = [d :: cs'] := by
      refine ih d (fun a ha => ?_)
      rcases List.mem_cons.1 ha with rfl | ha'
      · rfl
      · rw [h a (by simp [ha']), ← hd]
    unfold runsBy
    rw [hrec]
    simp [hd]

/-- Unfolding equation for `runsBy` when the tail's runs are known. -/
theorem runsBy_cons_of_head (f : Char → Bool) (x : Char) (cs : List Char) (d : Char)
    (t : List Char) (ts : List (List Char)) (h : runsBy f cs = (d :: t) :: ts) :
    runsBy f (x :: cs) =
      if f x = f d then (x :: d :: t) :: ts else [x] :: (d :: t) :: ts := by
  unfold runsBy
  rw [h]

/-- Splitting runs across a class boundary: if `a` ends in one class and
`c` opens the other, the runs of `a ++ c :: b` are the runs of each part. -/
theorem runsBy_append (f : Char → Bool) (a : List Char) (c : Char) (b : List Char)
    (ha : a ≠ []) (hb : f (a.getLastD ' ') ≠ f c) :
    runsBy f (a ++ c :: b) = runsBy f a ++ runsBy f (c :: b) := by
  induction a with
  | nil => exact absurd rfl ha
  | cons x a' ih =>
    rcases a' with _ | ⟨y, a''⟩
    · have hb1 : f x ≠ f c := by simpa [List.getLastD] using hb
      obtain ⟨t, ts, hshape⟩ := runsBy_cons_shape f c b
      rw [List.singleton_append, runsBy_cons_of_head f x (c :: b) c t ts hshape, if_neg hb1,
        hshape]
      rfl
    · have hb' : f ((y :: a'').getLastD ' ') ≠ f c := by
        simpa [List.getLastD_cons] using hb
      have hrec := ih (by simp) hb'
      obtain ⟨t2, ts2, hshape2⟩ := runsBy_cons_shape f y a''
      have hinner : runsBy f (y :: (a'' ++ c :: b)) = (y :: t2) :: (ts2 ++ runsBy f (c :: b)) := by
        have hli : (y :: a'') ++ c :: b = y :: (a'' ++ c :: b) := by simp
        rw [← hli, hrec, hshape2]
        simp
      show runsBy f (x :: (y :: (a'' ++ c :: b))) = runsBy f (x :: y :: a'') ++ runsBy f (c :: b)
      rw [runsBy_cons_of_head f x (y :: (a'' ++ c :: b)) y t2 (ts2 ++ runsBy f (c :: b)) hinner,
        runsBy_cons_of_head f x (y :: a'') y t2 ts2 hshape2]
      by_cases hxy : f x = f y
      · simp [hxy]
      · simp [hxy]

/-- Alternating-run chains: every run is non-empty and homogeneous, and
consecutive runs swap classes. `runsBy` always produces such a chain. -/
inductive AltRuns (f : Char → Bool) : Bool → List (List Char) → Prop
  | nil (b : Bool) : AltRuns f b []
  | cons (b : Bool) (w : List Char) (rs : List (List Char)) :
      w ≠ [] → (∀ c ∈ w, f c = b) → AltRuns f (!b) rs → AltRuns f b (w :: rs)

theorem runsBy_altRuns (f : Char → Bool) (l : List Char) :
    ∃ b, AltRuns f b (runsBy f l) := by
  induction l with
  | nil => exact ⟨true, AltRuns.nil true⟩
  | cons c cs ih =>
    obtain ⟨b, hb⟩ := ih
    unfold runsBy
    rcases h : runsBy f cs with _ | ⟨t0, ts0⟩
    · exact ⟨f c, AltRuns.cons _ [c] [] (by simp) (by simp) (AltRuns.nil _)⟩
    · rw [h] at hb
      rcases t0 with _ | ⟨d, t⟩
      · cases hb with
        | cons _ _ _ hne _ _ => exact absurd rfl hne
      · cases hb with
        | cons _ _ _ hne hhom htail =>
          by_cases hfc : f c = f d
          · refine ⟨b, ?_⟩
            simp only [if_pos hfc]
            refine AltRuns.cons b (c :: d :: t) ts0 (by simp) ?_ htail
            intro a hamem
            rcases List.mem_cons.1 hamem with rfl | ha'
            · rw [hfc]; exact hhom d (by simp)
            · exact hhom a ha'
          · refine ⟨f c, ?_⟩
            simp only [if_neg hfc]
            refine AltRuns.cons (f c) [c] ((d :: t) :: ts0) (by simp) (by simp) ?_
            have hbval : f d = b := hhom d (by simp)
            have hcnb : f c = !b := by
              rcases Bool.eq_false_or_eq_true (f c) with h1 | h1 <;>
                rcases Bool.eq_false_or_eq_true b with h2 | h2 <;>
                  simp_all
            have hgoal : (!(f c)) = b := by rw [hcnb, Bool.not_not]
            rw [hgoal]
            exact AltRuns.cons b (d :: t) ts0 hne hhom htail

/-- `text.split(/\b/)` from `spellCorrect`: split at every word boundary,
i.e. maximal runs of word / non-word characters. -/
def tokenize (l : List Char) : List (List Char) := runsBy isWordChar l

/-- The `spellingCorrections` object literal, in source order. -/
def dictL : List (List Char × List Char) :=
  [ ("teh".toList, "the".toList)
  , ("recieve".toList, "receive".toList)
  , ("seperate".toList, "separate".toList)
  , ("definately".toList, "definitely".toList)
  , ("occured".toList, "occurred".toList)
  , ("untill".toList, "until".toList)
  , ("sucessful".toList, "successful".toList)
  , ("tommorow".toList, "tomorrow".toList)
  , ("metting".toList, "meeting".toList)
  , ("becuase".toList, "because".toList)
  , ("wich".toList, "which".toList)
  , ("thier".toList, "their".toList)
  , ("wierd".toList, "weird".toList)
  , ("beleive".toList, "believe".toList)
  , ("calender".toList, "calendar".toList)
  , ("arguement".toList, "argument".toList)
  , ("existance".toList, "existence".toList)
  , ("goverment".toList, "government".toList)
  , ("occassion".toList, "occasion".toList)
  , ("realy".toList, "really".toList)
  , ("reccomend".toList, "recommend".toList)
  , ("writting".toList, "writing".toList)
  , ("youre".toList, "you're".toList)
  , ("ur".toList, "your".toList)
  , ("dreamm".toList, "dream".toList)
  , ("lett".toList, "let".toList) ]

/-- Own-property lookup in the dictionary. -/
def dictLookup (w : List Char) : Option (List Char) :=
  (dictL.find? (fun p => p.1 == w)).map (fun p => p.2)

/-- Result of the JS property read `this.spellingCorrections[lower]`:
either an own (string) entry, or a truthy non-string inherited from
`Object.prototype` (`constructor`, `__proto__` — the only prototype
members whose names are entirely lowercase, hence reachable from a
lowercased token). -/
inductive LookupHit where
  | val (v : List Char)
  | protoObj
deriving DecidableEq

/-- Full JS property lookup, own properties first, then the prototype. -/
def jsLookup (w : List Char) : Option LookupHit :=
  match dictLookup w with
  | some v => some (LookupHit.val v)
  | none =>
    if w = "constructor".toList || w = "__proto__".toList then some LookupHit.protoObj
    else none

/-- `correction.charAt(0).toUpperCase() + correction.slice(1)`. -/
def capitalizeJs : List Char → List Char
  | [] => []
  | c :: cs => jsToUpper c :: cs

/-- `original[0] === original[0].toUpperCase()` (vacuously true for `""`,
though the all-uppercase branch already catches that case). -/
def firstUpper (o : List Char) : Bool :=
  match o with
  | [] => true
  | x :: _ => jsToUpper x = x

/-- `GrammarChecker.preserveCase`: all-caps test first, then
first-letter-uppercase, else lowercase. -/
def preserveCase (o c : List Char) : List Char :=
  if o.map jsToUpper = o then c.map jsToUpper
  else if firstUpper o then capitalizeJs c
  else c.map jsToLower

inductive ChangeKind where
  | spelling
  | grammar
deriving DecidableEq

/-- One recorded correction (`type` / `original` / `corrected` / `message`). -/
structure Change where
  kind : ChangeKind
  original : List Char
  corrected : List Char
  message : List Char
deriving DecidableEq

/-- The template literal `Spelling: "w" → "cw"`. -/
def spellMsg (w cw : List Char) : List Char :=
  "Spelling: \"".toList ++ w ++ ("\" → \"".toList ++ (cw ++ "\"".toList))

/-- Processing of one token of `spellCorrect`'s `words.map` callback.
A prototype hit makes `preserveCase` call a string method on a
non-string, i.e. throw (`Except.error`). -/
def spellStep (w : List Char) : Except Unit (List Char × List Change) :=
  match jsLookup (w.map jsToLower) with
  | some (LookupHit.val v) =>
    let cw := preserveCase w v
    if w = cw then Except.ok (cw, [])
    else Except.ok (cw, [⟨ChangeKind.spelling, w, cw, spellMsg w cw⟩])
  | some LookupHit.protoObj => Except.error ()
  | none => Except.ok (w, [])

/-- The whole `words.map(...).join('')` with its `changes` accumulator. -/
def spellTokens : List (List Char) → Except Unit (List Char × List Change)
  | [] => Except.ok ([], [])
  | w :: ws =>
    match spellStep w with
    | Except.error e => Except.error e
    | Except.ok (cw, ch) =>
      match spellTokens ws with
      | Except.error e => Except.error e
      | Except.ok (rest, chs) => Except.ok (cw ++ rest, ch ++ chs)

/-- `GrammarChecker.spellCorrect` on raw character lists. -/
def spellCorrectL (l : List Char) : Except Unit (List Char × List Change) :=
  spellTokens (tokenize l)

/-- Result record of `spellCorrect` at the `String` level. -/
structure SpellRes where
  text : String
  changes : List Change
deriving DecidableEq

/-- `GrammarChecker.spellCorrect`. -/
def spellCorrect (s : String) : Except Unit SpellRes :=
  match spellCorrectL s.toList with
  | Except.error e => Except.error e
  | Except.ok (t, chs) => Except.ok ⟨String.mk t, chs⟩

/-- `text.trim()` (ASCII model). -/
def jsTrim (l : List Char) : List Char :=
  ((l.dropWhile isJsWs).reverse.dropWhile isJsWs).reverse

/-- Result of one regex match attempt: the matched text, the capture
(`$1`), and the remaining input after the match. -/
structure MRes where
  matched : List Char
  cap : List Char
  rest : List Char
deriving DecidableEq

/-- Case-insensitive literal matching (regex literal under the `i` flag):
consumes exactly the literal's length, returning the consumed characters
in their original case. -/
def matchCI : List Char → List Char → Option (List Char × List Char)
  | [], l => some ([], l)
  | _ :: _, [] => none
  | p :: ps, c :: cs =>
    if ciEq p c then (matchCI ps cs).map (fun q => (c :: q.1, q.2)) else none

/-- The trailing `\b` after a literal: next char absent or a non-word char. -/
def endB (l : List Char) : Bool :=
  match l with
  | [] => true
  | c :: _ => !isWordChar c

/-- The leading `\b` before a letter: start of input or previous char non-word. -/
def wbOk (prev : Option Char) : Bool :=
  match prev with
  | none => true
  | some c => !isWordChar c

/-- One alternative of `\b(alt…)\s+verb\b` with its full continuation
(the JS engine backtracks into the next alternative if any later part
fails): literal alternative, then greedy `\s+`, then the verb literal,
then the trailing `\b`. -/
def tryAlt (alt verb : List Char) (l : List Char) : Option MRes :=
  match matchCI alt l with
  | none => none
  | some (pa, r1) =>
    let w := r1.takeWhile isJsWs
    let r2 := r1.dropWhile isJsWs
    if w.isEmpty then none
    else
      match matchCI verb r2 with
      | none => none
      | some (vb, r3) =>
        if endB r3 then some ⟨pa ++ (w ++ vb), pa, r3⟩ else none

/-- Ordered alternation: first alternative whose continuation succeeds. -/
def tryAlts (alts : List (List Char)) (verb : List Char) (l : List Char) : Option MRes :=
  match alts with
  | [] => none
  | a :: rest =>
    match tryAlt a verb l with
    | some m => some m
    | none => tryAlts rest verb l

/-- Rule 5 matcher, `a\s+([aeiou])` under `/i` (after the leading `\b`):
greedy `\s+` cannot backtrack usefully because whitespace is never a
vowel, so the rule fires exactly when the character after the
whitespace run is a vowel letter. -/
def tryA (l : List Char) : Option MRes :=
  match l with
  | [] => none
  | c :: r1 =>
    if ciEq 'a' c then
      let w := r1.takeWhile isJsWs
      let r2 := r1.dropWhile isJsWs
      if w.isEmpty then none
      else
        match r2 with
        | [] => none
        | d :: r3 => if isVowelCI d then some ⟨c :: (w ++ [d]), [d], r3⟩ else none
    else none

/-- Rule 6 continuation after `an` and the greedy whitespace run `w`:
`[^aeiou]` consumes the next character when it is not a vowel; on a vowel
(or at the end of input) the engine backtracks one step into `\s+` and
captures the run's last whitespace character, needing `2 ≤ w.length`. -/
def tryAnAfterWs (c1 c2 : Char) (w : List Char) : List Char → Option MRes
  | [] => if 2 ≤ w.length then some ⟨c1 :: c2 :: w, [w.getLastD ' '], []⟩ else none
  | d :: r3 =>
    if isVowelCI d = true then
      if 2 ≤ w.length then some ⟨c1 :: c2 :: w, [w.getLastD ' '], d :: r3⟩ else none
    else some ⟨c1 :: c2 :: (w ++ [d]), [d], r3⟩

/-- Rule 6 matcher, `an\s+([^aeiou])` under `/i` (after the leading `\b`). -/
def tryAn : List Char → Option MRes
  | [] => none
  | [_] => none
  | c1 :: c2 :: r1 =>
    if ciEq 'a' c1 && ciEq 'n' c2 then
      if (r1.takeWhile isJsWs).isEmpty then none
      else tryAnAfterWs c1 c2 (r1.takeWhile isJsWs) (r1.dropWhile isJsWs)
    else none

/-- One entry of `this.grammarRules`: matcher (everything after the
leading `\b`), replacement template, and message. -/
structure GRule where
  tryM : List Char → Option MRes
  repl : List Char → List Char
  message : List Char

/-- A match attempt at a position: the leading `\b`, then the pattern. -/
def tryMatchAt (r : GRule) (prev : Option Char) (l : List Char) : Option MRes :=
  if wbOk prev then r.tryM l else none

/-- Rule 1: `/\b(I|he|she|it)\s+are\b/gi` → `'$1 am/is'`. -/
def rule1 : GRule :=
  ⟨tryAlts ["i".toList, "he".toList, "she".toList, "it".toList] "are".toList,
   fun cap => cap ++ " am/is".toList,
   "Subject-verb agreement error".toList⟩

/-- Rule 2: `/\b(I|you|we|they)\s+is\b/gi` → `'$1 are'`. -/
def rule2 : GRule :=
  ⟨tryAlts ["i".toList, "you".toList, "we".toList, "they".toList] "is".toList,
   fun cap => cap ++ " are".toList,
   "Subject-verb agreement error".toList⟩

/-- Rule 3: `/\bI\s+has\b/gi` → `'I have'`. -/
def rule3 : GRule :=
  ⟨tryAlts ["i".toList] "has".toList,
   fun _ => "I have".toList,
   "Incorrect verb form".toList⟩

/-- Rule 4: `/\b(he|she|it)\s+have\b/gi` → `'$1 has'`. -/
def rule4 : GRule :=
  ⟨tryAlts ["he".toList, "she".toList, "it".toList] "have".toList,
   fun cap => cap ++ " has".toList,
   "Subject-verb agreement error".toList⟩

/-- Rule 5: `/\ba\s+([aeiou])/gi` → `'an $1'`. -/
def rule5 : GRule :=
  ⟨tryA, fun cap => "an ".toList ++ cap,
   "Article usage: use \"an\" before vowel sounds".toList⟩

/-- Rule 6: `/\ban\s+([^aeiou])/gi` → `'a $1'`. -/
def rule6 : GRule :=
  ⟨tryAn, fun cap => "a ".toList ++ cap,
   "Article usage: use \"a\" before consonant sounds".toList⟩

def grammarRules : List GRule := [rule1, rule2, rule3, rule4, rule5, rule6]

/-- Left-to-right global scan of one rule (`matchAll` positions and the
`replace` output in one pass). `fuel` only bounds recursion depth; every
step consumes at least one character, so `fuel = l.length` is exact. -/
def scanFuel (r : GRule) : Nat → Option Char → List Char → List Char × List (List Char × List Char)
  | 0, _, l => (l, [])
  | _ + 1, _, [] => ([], [])
  | f + 1, prev, c :: cs =>
    match tryMatchAt r prev (c :: cs) with
    | some m =>
      let p := scanFuel r f (some (m.matched.getLastD c)) m.rest
      (r.repl m.cap ++ p.1, (m.matched, m.cap) :: p.2)
    | none =>
      let p := scanFuel r f (some c) cs
      (c :: p.1, p.2)

/-- `corrected.matchAll(rule.pattern)` together with
`corrected.replace(rule.pattern, rule.replacement)`. -/
def runRule (r : GRule) (l : List Char) : List Char × List (List Char × List Char) :=
  scanFuel r l.length none l

/-- `match[0].replace(rule.pattern, rule.replacement)`: the matched span
replaced standalone. -/
def matchedReplaced (r : GRule) (m : List Char) : List Char :=
  (runRule r m).1

/-- One iteration of the `grammarRules.forEach` loop: record a change for
every (non-empty) match of the rule on the current working copy, then
replace globally. -/
def grammarStep (acc : List Char × List Change) (r : GRule) : List Char × List Change :=
  let res := runRule r acc.1
  (res.1,
   acc.2 ++ res.2.filterMap (fun p =>
     if p.1.isEmpty then none
     else some ⟨ChangeKind.grammar, p.1, matchedReplaced r p.1, r.message⟩))

/-- `GrammarChecker.grammarCorrect` on raw character lists. -/
def grammarCorrectL (l : List Char) : List Char × List Change :=
  grammarRules.foldl grammarStep (l, [])

/-- The caller-supplied options object. -/
structure COptions where
  spellCheck : Bool
  grammarCheck : Bool
deriving DecidableEq

/-- `correct`'s result record, string fields as character lists. -/
structure CResult where
  original : List Char
  spellCorrected : List Char
  corrected : List Char
  changes : List Change
deriving DecidableEq

/-- `GrammarChecker.correct` for string inputs (the non-string guard
lives in `correctJs`): trim, optional spelling pass, optional grammar
pass. `finalCorrected` is initialised to `original` and only updated by
the grammar branch, exactly as in the source. -/
def correctL (l : List Char) (opts : COptions) : Except Unit CResult :=
  if l.isEmpty then Except.ok ⟨[], [], [], []⟩
  else
    let original := jsTrim l
    match (if opts.spellCheck then spellCorrectL original else Except.ok (original, [])) with
    | Except.error e => Except.error e
    | Except.ok (sc, chs1) =>
      let spellCorrected := sc
      let gres := if opts.grammarCheck then grammarCorrectL spellCorrected
                  else (original, [])
      Except.ok ⟨original, spellCorrected, gres.1, chs1 ++ gres.2⟩

/-- A JavaScript value, as far as `correct`'s guard can distinguish one. -/
inductive JsVal where
  | vStr (s : String)
  | vNum (n : Int)
  | vNaN
  | vBool (b : Bool)
  | vNull
  | vUndefined
  | vObj
deriving DecidableEq

/-- JS truthiness of a `JsVal`. -/
def truthy : JsVal → Bool
  | JsVal.vStr s => !s.isEmpty
  | JsVal.vNum n => n ≠ 0
  | JsVal.vNaN => false
  | JsVal.vBool b => b
  | JsVal.vNull => false
  | JsVal.vUndefined => false
  | JsVal.vObj => true

/-- Is the value a string? (`typeof text === 'string'`.) -/
def isStr : JsVal → Bool
  | JsVal.vStr _ => true
  | _ => false

/-- `correct`'s result with the fields as JS values, since the guard can
put non-strings into them. -/
structure JsResult where
  original : JsVal
  spellCorrected : JsVal
  corrected : JsVal
  changes : List Change
deriving DecidableEq

/-- `GrammarChecker.correct(text, options)` including the
`if (!text || typeof text !== 'string')` guard, which returns
`text || ''` in all three string fields. -/
def correctJs (v : JsVal) (opts : COptions) : Except Unit JsResult :=
  if !truthy v || !isStr v then
    let fb := if truthy v then v else JsVal.vStr ""
    Except.ok ⟨fb, fb, fb, []⟩
  else
    match v with
    | JsVal.vStr s =>
      (match correctL s.toList opts with
       | Except.error e => Except.error e
       | Except.ok r =>
         Except.ok ⟨JsVal.vStr (String.mk r.original), JsVal.vStr (String.mk r.spellCorrected),
           JsVal.vStr (String.mk r.corrected), r.changes⟩)
    | _ => Except.ok ⟨v, v, v, []⟩

/-- One classified span of the rendered diff (`diff-removed` /
`diff-added` spans and plain text in the generated markup). -/
inductive DiffSeg where
  | unchanged (s : List Char)
  | removed (s : List Char)
  | added (s : List Char)
deriving DecidableEq

/-- `generateDiff`'s two possible outcomes: the early-return "no changes
needed" banner, or the walked segment sequence. -/
inductive DiffOut where
  | noChanges
  | segs (l : List DiffSeg)
deriving DecidableEq

/-- `s.split(/(\s+)/)`: whitespace runs are kept (captured separator),
and a separator at either end contributes an empty chunk. -/
def splitWsJs (l : List Char) : List (List Char) :=
  match h : runsBy isJsWs l with
  | [] => [[]]
  | r0 :: rs =>
    (if isJsWs (r0.headD 'x') then [([] : List Char)] else []) ++ (r0 :: rs) ++
      (match (r0 :: rs).getLast (by simp) with
       | [] => []
       | c :: _ => if isJsWs c then [([] : List Char)] else [])

/-- The two-cursor lock-step walk of `generateDiff`. -/
def diffWalk : List (List Char) → List (List Char) → List DiffSeg
  | [], ys => ys.map DiffSeg.added
  | x :: xs, [] => DiffSeg.removed x :: diffWalk xs []
  | x :: xs, y :: ys =>
    if x = y then DiffSeg.unchanged x :: diffWalk xs ys
    else DiffSeg.removed x :: DiffSeg.added y :: diffWalk xs ys

/-- `GrammarChecker.generateDiff`, abstracted from markup to the segment
classification it renders. -/
def generateDiff (o c : List Char) : DiffOut :=
  if o = c then DiffOut.noChanges
  else DiffOut.segs (diffWalk (splitWsJs o) (splitWsJs c))

/-- `GrammarChecker.preserveCase` at the `String` level. -/
def preserveCaseS (o c : String) : String :=
  String.mk (preserveCase o.toList c.toList)

/-- Claim C1: the spec states `corrected` equals `spellCorrected`
whenever grammar checking is disabled. The code initialises
`finalCorrected` to `original` and only updates it inside the
`options.grammarCheck` branch, so with spell checking enabled and
grammar checking disabled the returned `corrected` is the unmodified
original even though spelling substitutions were made (and recorded in
`changes`): on `"teh dreamm is over"` with `{spellCheck: true,
grammarCheck: false}` the result has `spellCorrected = "the dream is
over"` but `corrected = "teh dreamm is over"`. -/
theorem c1_corrected_ignores_spell_pass :
    correctJs (JsVal.vStr "teh dreamm is over") ⟨true, false⟩ =
      Except.ok ⟨JsVal.vStr "teh dreamm is over", JsVal.vStr "the dream is over",
        JsVal.vStr "teh dreamm is over",
        [⟨ChangeKind.spelling, "teh".toList, "the".toList,
          spellMsg "teh".toList "the".toList⟩,
         ⟨ChangeKind.spelling, "dreamm".toList, "dream".toList,
          spellMsg "dreamm".toList "dream".toList⟩]⟩ ∧
    (JsVal.vStr "teh dreamm is over") ≠ (JsVal.vStr "the dream is over") := by
  exact ⟨by decide, by decide⟩

/-- Claim C2: the spec states no error condition exists inside the
engine and dictionary lookups are total. In fact
`this.spellingCorrections[lower]` reaches `Object.prototype`, so the
word `"constructor"` (and `"__proto__"`) produces a truthy non-string
and `preserveCase` then throws a `TypeError`; `correct` propagates it. -/
theorem c2_constructor_throws :
    spellCorrect "constructor" = Except.error () ∧
    spellCorrect "the __proto__ word" = Except.error () ∧
    correctJs (JsVal.vStr "constructor") ⟨true, true⟩ = Except.error () ∧
    spellCorrect "toString" =
      Except.ok ⟨"toString", []⟩ := by
  exact ⟨by decide, by decide, by decide, by decide⟩

/-- Claim C3, counterexample: for the truthy non-string input `42` the
guard returns `text || ''`, i.e. the value `42` itself, in all three
fields — not the empty string the claim requires. -/
theorem c3_counterexample :
    correctJs (JsVal.vNum 42) ⟨true, true⟩ =
      Except.ok ⟨JsVal.vNum 42, JsVal.vNum 42, JsVal.vNum 42, []⟩ ∧
    (JsVal.vNum 42) ≠ (JsVal.vStr "") := by
  exact ⟨by decide, by decide⟩

/-- Claim C3, amended: the guard returns empty-string fields (with no
changes, and without throwing) exactly for *falsy* input — the empty
string, `null`, `undefined`, `false`, `0`, `NaN`. A truthy non-string
input is returned unchanged in all three fields (defined, but not a
string). For every input on which `correct` returns, the three fields
are never `null` or `undefined`. -/
theorem c3_guard_behaviour :
    (∀ opts, correctJs (JsVal.vStr "") opts =
      Except.ok ⟨JsVal.vStr "", JsVal.vStr "", JsVal.vStr "", []⟩) ∧
    (∀ v opts, truthy v = false → correctJs v opts =
      Except.ok ⟨JsVal.vStr "", JsVal.vStr "", JsVal.vStr "", []⟩) ∧
    (∀ v opts, isStr v = false → truthy v = true → correctJs v opts =
      Except.ok ⟨v, v, v, []⟩) ∧
    (∀ v opts r, correctJs v opts = Except.ok r →
      r.original ≠ JsVal.vNull ∧ r.original ≠ JsVal.vUndefined ∧
      r.spellCorrected ≠ JsVal.vNull ∧ r.spellCorrected ≠ JsVal.vUndefined ∧
      r.corrected ≠ JsVal.vNull ∧ r.corrected ≠ JsVal.vUndefined) := by
  have hguard : ∀ v opts, truthy v = false → correctJs v opts =
      Except.ok ⟨JsVal.vStr "", JsVal.vStr "", JsVal.vStr "", []⟩ := by
    intro v opts h
    unfold correctJs
    rw [h]
    simp
  have hpass : ∀ v opts, isStr v = false → truthy v = true → correctJs v opts =
      Except.ok ⟨v, v, v, []⟩ := by
    intro v opts h ht
    unfold correctJs
    rw [h, ht]
    simp only [Bool.not_true, Bool.not_false, Bool.false_or, if_pos rfl]
    cases v <;> simp_all [isStr]
  refine ⟨fun opts => hguard (JsVal.vStr "") opts (by decide), hguard, hpass, ?_⟩
  intro v opts r h
  by_cases ht : truthy v = true
  · by_cases hs : isStr v = true
    · rcases v with s | n | _ | b | _ | _ | _ <;> simp [isStr] at hs
      have hne : s.isEmpty = false := by
        simp [truthy] at ht
        exact ht
      rcases hc : correctL s.data opts with e | cr
      · have hev : correctJs (JsVal.vStr s) opts = Except.error e := by
          unfold correctJs
          rw [show (!truthy (JsVal.vStr s) || !isStr (JsVal.vStr s)) = false from by
            simp [truthy, isStr, hne]]
          simp only [Bool.false_eq_true, if_false]
          rw [show String.toList s = s.data from rfl, hc]
        rw [hev] at h
        exact absurd h (by simp)
      · have hev : correctJs (JsVal.vStr s) opts =
            Except.ok ⟨JsVal.vStr (String.mk cr.original), JsVal.vStr (String.mk cr.spellCorrected),
              JsVal.vStr (String.mk cr.corrected), cr.changes⟩ := by
          unfold correctJs
          rw [show (!truthy (JsVal.vStr s) || !isStr (JsVal.vStr s)) = false from by
            simp [truthy, isStr, hne]]
          simp only [Bool.false_eq_true, if_false]
          rw [show String.toList s = s.data from rfl, hc]
        rw [hev] at h
        injection h with h2
        rw [← h2]
        exact ⟨by simp, by simp, by simp, by simp, by simp, by simp⟩
    · have h2 := hpass v opts (by simpa using hs) ht
      rw [h2] at h
      injection h with h3
      rw [← h3]
      have hv1 : v ≠ JsVal.vNull := by rintro rfl; simp [truthy] at ht
      have hv2 : v ≠ JsVal.vUndefined := by rintro rfl; simp [truthy] at ht
      exact ⟨by simpa using hv1, by simpa using hv2, by simpa using hv1,
        by simpa using hv2, by simpa using hv1, by simpa using hv2⟩
  · have h2 := hguard v opts (by simpa using ht)
    rw [h2] at h
    injection h with h3
    rw [← h3]
    exact ⟨by simp, by simp, by simp, by simp, by simp, by simp⟩

/-- Claim C3, witness for the amended theorem at concrete inputs. -/
theorem c3_guard_behaviour_witness :
    correctJs JsVal.vNull ⟨true, true⟩ =
      Except.ok ⟨JsVal.vStr "", JsVal.vStr "", JsVal.vStr "", []⟩ ∧
    correctJs JsVal.vObj ⟨true, true⟩ =
      Except.ok ⟨JsVal.vObj, JsVal.vObj, JsVal.vObj, []⟩ := by
  exact ⟨c3_guard_behaviour.2.1 JsVal.vNull ⟨true, true⟩ (by decide),
    c3_guard_behaviour.2.2.1 JsVal.vObj ⟨true, true⟩ (by decide) (by decide)⟩

/-- Claim C7: `preserveCase` returns the correction fully uppercased
when the original equals its own uppercasing (checked first), the
correction with only its first character uppercased when the original's
first character is uppercase but the word is not all-caps, and the
correction fully lowercased otherwise; with the four spec examples,
including the single-letter edge case `preserveCase("I","i") = "I"`. -/
theorem c7_preserveCase :
    preserveCaseS "TEH" "the" = "THE" ∧
    preserveCaseS "Teh" "the" = "The" ∧
    preserveCaseS "teh" "the" = "the" ∧
    preserveCaseS "I" "i" = "I" ∧
    (∀ o c : List Char, o.map jsToUpper = o → preserveCase o c = c.map jsToUpper) ∧
    (∀ x o c, (x :: o).map jsToUpper ≠ x :: o → jsToUpper x = x →
      preserveCase (x :: o) c = capitalizeJs c) ∧
    (∀ x o c, jsToUpper x ≠ x → preserveCase (x :: o) c = c.map jsToLower) := by
  refine ⟨by decide, by decide, by decide, by decide, ?_, ?_, ?_⟩
  · intro o c h
    unfold preserveCase
    rw [if_pos h]
  · intro x o c hall hfst
    unfold preserveCase
    rw [if_neg hall, if_pos (show firstUpper (x :: o) = true from by simp [firstUpper, hfst])]
  · intro x o c hfst
    have hall : (x :: o).map jsToUpper ≠ x :: o := by
      intro hcontra
      exact hfst (List.head_eq_of_cons_eq (by simpa using hcontra))
    unfold preserveCase
    rw [if_neg hall, if_neg (show ¬ firstUpper (x :: o) = true from by simp [firstUpper, hfst])]

/-- Claim C7, witness: the universal branch statements applied at
concrete inputs. -/
theorem c7_preserveCase_witness :
    preserveCase "ABC9".toList "xyz".toList = "XYZ".toList ∧
    preserveCase "Abc".toList "xYz".toList = "XYz".toList ∧
    preserveCase "aBC".toList "xYz".toList = "xyz".toList := by
  refine ⟨?_, ?_, ?_⟩
  · have h := c7_preserveCase.2.2.2.2.1 "ABC9".toList "xyz".toList (by decide)
    rw [h]; decide
  · have h := c7_preserveCase.2.2.2.2.2.1 'A' "bc".toList "xYz".toList (by decide) (by decide)
    rw [show ("Abc".toList : List Char) = 'A' :: "bc".toList from by decide, h]; decide
  · have h := c7_preserveCase.2.2.2.2.2.2 'a' "BC".toList "xYz".toList (by decide)
    rw [show ("aBC".toList : List Char) = 'a' :: "BC".toList from by decide, h]; decide

/-- Claim C8: the word-diff walks both whitespace-split token sequences
in lock-step — `Unchanged` at token-equal positions, a `Removed` then
`Added` pair at unequal positions (there is no distinct `Replaced`
kind in `DiffSeg`), all-`Removed` / all-`Added` for an exhausted side —
`diff("the cat sat", "the dog sat")` produces exactly the six claimed
segments, and equal inputs short-circuit to the `noChanges` indicator. -/
theorem c8_generateDiff :
    generateDiff "the cat sat".toList "the dog sat".toList =
      DiffOut.segs [DiffSeg.unchanged "the".toList, DiffSeg.unchanged " ".toList,
        DiffSeg.removed "cat".toList, DiffSeg.added "dog".toList,
        DiffSeg.unchanged " ".toList, DiffSeg.unchanged "sat".toList] ∧
    (∀ s : List Char, generateDiff s s = DiffOut.noChanges) ∧
    (∀ xs, diffWalk xs [] = xs.map DiffSeg.removed) ∧
    (∀ ys, diffWalk [] ys = ys.map DiffSeg.added) ∧
    (∀ x xs ys, diffWalk (x :: xs) (x :: ys) = DiffSeg.unchanged x :: diffWalk xs ys) ∧
    (∀ x y xs ys, x ≠ y →
      diffWalk (x :: xs) (y :: ys) = DiffSeg.removed x :: DiffSeg.added y :: diffWalk xs ys) := by
  refine ⟨by decide, ?_, ?_, ?_, ?_, ?_⟩
  · intro s
    unfold generateDiff
    rw [if_pos rfl]
  · intro xs
    induction xs with
    | nil => rfl
    | cons x xs ih => unfold diffWalk; rw [ih]; rfl
  · intro ys
    rfl
  · intro x xs ys
    conv_lhs => unfold diffWalk
    rw [if_pos rfl]
  · intro x y xs ys hne
    conv_lhs => unfold diffWalk
    rw [if_neg hne]

/-- Claim C8, witness: the unequal-token law applied at a concrete pair. -/
theorem c8_generateDiff_witness :
    diffWalk ["cat".toList] ["dog".toList] = [DiffSeg.removed "cat".toList,
      DiffSeg.added "dog".toList] := by
  have h := c8_generateDiff.2.2.2.2.2 "cat".toList "dog".toList [] [] (by decide)
  simpa using h

/-- If no token of a list is in the dictionary (nor a prototype name),
the spelling pass reproduces the concatenation with no changes. -/
theorem spellTokens_id_of_nomatch (ts : List (List Char))
    (h : ∀ w ∈ ts, jsLookup (w.map jsToLower) = none) :
    spellTokens ts = Except.ok (joinL ts, []) := by
  induction ts with
  | nil => rfl
  | cons w ws ih =>
    unfold spellTokens spellStep
    rw [h w (by simp), ih (fun u hu => h u (by simp [hu]))]
    simp

/-- Claim C4: tokenisation at word boundaries is lossless — the tokens
of any string concatenate back to it exactly (character-list and
`String` forms) — and `spellCorrect` therefore reproduces its input
verbatim whenever no token matches the dictionary. -/
theorem c4_tokenize_lossless :
    (∀ l : List Char, joinL (tokenize l) = l) ∧
    (∀ s : String, String.mk (joinL (tokenize s.toList)) = s) ∧
    (∀ l : List Char, (∀ w ∈ tokenize l, jsLookup (w.map jsToLower) = none) →
      spellCorrectL l = Except.ok (l, [])) := by
  refine ⟨fun l => joinL_runsBy isWordChar l, ?_, ?_⟩
  · intro s
    unfold tokenize
    rw [joinL_runsBy isWordChar s.toList]
    rfl
  · intro l h
    unfold spellCorrectL
    rw [spellTokens_id_of_nomatch (tokenize l) h]
    unfold tokenize
    rw [joinL_runsBy isWordChar l]

/-- Claim C4, witness: the verbatim pass-through applied to a string of
whitespace, punctuation and an unmatched word. -/
theorem c4_tokenize_lossless_witness :
    spellCorrectL " ?! xq ".toList = Except.ok (" ?! xq ".toList, []) :=
  c4_tokenize_lossless.2.2 " ?! xq ".toList (by decide)

/-- Pointwise case-insensitive agreement of a literal and a span. -/
def ciMatch : List Char → List Char → Bool
  | [], [] => true
  | p :: ps, c :: cs => ciEq p c && ciMatch ps cs
  | _, _ => false

theorem ciMatch_length (p m : List Char) (h : ciMatch p m = true) :
    m.length = p.length := by
  induction p generalizing m with
  | nil => cases m with
    | nil => rfl
    | cons c cs => simp [ciMatch] at h
  | cons a ps ih =>
    cases m with
    | nil => simp [ciMatch] at h
    | cons c cs =>
      simp only [ciMatch, Bool.and_eq_true] at h
      simp [ih cs h.2]

theorem ciMatch_ne_nil (p m : List Char) (hp : p ≠ []) (h : ciMatch p m = true) :
    m ≠ [] := by
  intro hm
  rw [hm] at h
  cases p with
  | nil => exact hp rfl
  | cons a ps => simp [ciMatch] at h

theorem matchCI_sound (p : List Char) :
    ∀ l m r, matchCI p l = some (m, r) → ciMatch p m = true ∧ l = m ++ r := by
  induction p with
  | nil =>
    intro l m r h
    unfold matchCI at h
    injection h with h2
    injection h2 with h3 h4
    rw [← h3, ← h4]
    exact ⟨rfl, rfl⟩
  | cons a ps ih =>
    intro l m r h
    cases l with
    | nil => simp [matchCI] at h
    | cons c cs =>
      unfold matchCI at h
      by_cases hci : ciEq a c = true
      · rw [if_pos hci] at h
        rcases hm : matchCI ps cs with _ | ⟨m', r'⟩
        · rw [hm] at h; simp at h
        · rw [hm] at h
          simp only [Option.map_some'] at h
          injection h with h2
          injection h2 with h3 h4
          obtain ⟨hc1, hc2⟩ := ih cs m' r' hm
          rw [← h3, ← h4]
          refine ⟨by simp [ciMatch, hci, hc1], by simp [hc2]⟩
      · rw [if_neg hci] at h
        exact absurd h (by simp)

theorem matchCI_of (p : List Char) :
    ∀ m r, ciMatch p m = true → matchCI p (m ++ r) = some (m, r) := by
  induction p with
  | nil =>
    intro m r h
    cases m with
    | nil => rfl
    | cons c cs => simp [ciMatch] at h
  | cons a ps ih =>
    intro m r h
    cases m with
    | nil => simp [ciMatch] at h
    | cons c cs =>
      simp only [ciMatch, Bool.and_eq_true] at h
      show matchCI (a :: ps) (c :: (cs ++ r)) = some (c :: cs, r)
      unfold matchCI
      rw [if_pos h.1, ih cs r h.2]
      rfl

/-- `takeWhile`/`dropWhile` of a whitespace run followed by a
non-whitespace character (or the end). -/
theorem wsRun_split (w rest : List Char) (hw : ∀ c ∈ w, isJsWs c = true)
    (hrest : ∀ d rs, rest = d :: rs → isJsWs d = false) :
    (w ++ rest).takeWhile isJsWs = w ∧ (w ++ rest).dropWhile isJsWs = rest := by
  induction w with
  | nil =>
    cases rest with
    | nil => exact ⟨rfl, rfl⟩
    | cons d rs =>
      have := hrest d rs rfl
      simp [List.takeWhile, List.dropWhile, this]
  | cons c w' ih =>
    have hc : isJsWs c = true := hw c (by simp)
    obtain ⟨h1, h2⟩ := ih (fun a ha => hw a (by simp [ha]))
    refine ⟨?_, ?_⟩
    · show (c :: (w' ++ rest)).takeWhile isJsWs = c :: w'
      simp [List.takeWhile, hc, h1]
    · show (c :: (w' ++ rest)).dropWhile isJsWs = rest
      simp [List.dropWhile, hc, h2]

theorem ciEq_shift (a b c : Char) (h : ciEq a c = true)
    (hne : jsToLower b ≠ jsToLower a) : ciEq b c = false := by
  unfold ciEq at h ⊢
  rw [show jsToLower c = jsToLower a from (of_decide_eq_true h).symm]
  simpa using hne

theorem matchCI_cons_false (a : Char) (ps : List Char) (c : Char) (cs : List Char)
    (h : ciEq a c = false) : matchCI (a :: ps) (c :: cs) = none := by
  unfold matchCI
  rw [h]
  rfl

theorem tryAlt_none_matchCI (alt verb l : List Char) (h : matchCI alt l = none) :
    tryAlt alt verb l = none := by
  unfold tryAlt
  rw [h]

theorem tryAlt_none_ws_empty (alt verb l pa : List Char) (d : Char) (r : List Char)
    (h : matchCI alt l = some (pa, d :: r)) (hd : isJsWs d = false) :
    tryAlt alt verb l = none := by
  unfold tryAlt
  rw [h]
  dsimp only
  simp [List.takeWhile, hd]

theorem tryAlt_none_verb (alt verb l pa r1 : List Char)
    (h : matchCI alt l = some (pa, r1))
    (hverb : matchCI verb (r1.dropWhile isJsWs) = none) :
    tryAlt alt verb l = none := by
  unfold tryAlt
  rw [h]
  dsimp only
  by_cases hw : (r1.takeWhile isJsWs).isEmpty
  · rw [if_pos hw]
  · rw [if_neg hw, hverb]

theorem tryAlt_sound (alt verb l : List Char) (mres : MRes)
    (h : tryAlt alt verb l = some mres) :
    ∃ pa w vb, mres.matched = pa ++ (w ++ vb) ∧ mres.cap = pa ∧
      ciMatch alt pa = true ∧ w ≠ [] ∧ (∀ c ∈ w, isJsWs c = true) ∧
      ciMatch verb vb = true ∧ l = mres.matched ++ mres.rest ∧ endB mres.rest = true := by
  unfold tryAlt at h
  rcases hm : matchCI alt l with _ | ⟨pa, r1⟩
  · rw [hm] at h; exact absurd h (by simp)
  · rw [hm] at h
    dsimp only at h
    obtain ⟨hci, hl⟩ := matchCI_sound alt l pa r1 hm
    by_cases hw : (r1.takeWhile isJsWs).isEmpty
    · rw [if_pos hw] at h; exact absurd h (by simp)
    · rw [if_neg hw] at h
      rcases hv : matchCI verb (r1.dropWhile isJsWs) with _ | ⟨vb, r3⟩
      · rw [hv] at h; exact absurd h (by simp)
      · rw [hv] at h
        dsimp only at h
        obtain ⟨hciv, hr2⟩ := matchCI_sound verb _ vb r3 hv
        by_cases he : endB r3 = true
        · rw [if_pos he] at h
          injection h with h2
          refine ⟨pa, r1.takeWhile isJsWs, vb, ?_, ?_, hci, ?_, ?_, hciv, ?_, ?_⟩
          · rw [← h2]
          · rw [← h2]
          · simpa using hw
          · intro c hc
            exact List.mem_takeWhile_imp hc
          · rw [← h2]
            show l = (pa ++ (r1.takeWhile isJsWs ++ vb)) ++ r3
            have hsplit : r1 = r1.takeWhile isJsWs ++ (vb ++ r3) := by
              conv_lhs => rw [← List.takeWhile_append_dropWhile isJsWs r1]
              rw [hr2]
            rw [hl]
            conv_lhs => rw [hsplit]
            simp
          · rw [← h2]
            exact he
        · rw [if_neg he] at h
          exact absurd h (by simp)

theorem tryAlt_complete (alt verb pa w vb : List Char)
    (hpa : ciMatch alt pa = true) (hw : w ≠ []) (hws : ∀ c ∈ w, isJsWs c = true)
    (hvb : ciMatch verb vb = true)
    (hvhead : ∀ d rs, vb = d :: rs → isJsWs d = false) :
    tryAlt alt verb (pa ++ (w ++ vb)) = some ⟨pa ++ (w ++ vb), pa, []⟩ := by
  unfold tryAlt
  rw [matchCI_of alt pa (w ++ vb) hpa]
  dsimp only
  obtain ⟨ht, hd⟩ := wsRun_split w vb hws hvhead
  rw [ht, hd, if_neg (by simp [hw])]
  have hm : matchCI verb vb = some (vb, []) := by
    have := matchCI_of verb vb [] hvb
    simpa using this
  rw [hm]
  dsimp only
  rw [if_pos (by rfl)]

theorem tryAlts_sound (alts : List (List Char)) (verb l : List Char) (mres : MRes)
    (h : tryAlts alts verb l = some mres) :
    ∃ alt ∈ alts, tryAlt alt verb l = some mres := by
  induction alts with
  | nil => simp [tryAlts] at h
  | cons a rest ih =>
    unfold tryAlts at h
    rcases ha : tryAlt a verb l with _ | m
    · rw [ha] at h
      obtain ⟨alt, h1, h2⟩ := ih h
      exact ⟨alt, by simp [h1], h2⟩
    · rw [ha] at h
      injection h with h2
      exact ⟨a, by simp, by rw [ha, h2]⟩

theorem ws_not_word (c : Char) (h : isJsWs c = true) : isWordChar c = false := by
  unfold isJsWs at h
  simp only [Bool.or_eq_true, decide_eq_true_eq] at h
  rcases h with (((((h | h) | h) | h) | h) | h) <;> rw [h] <;> decide

theorem jsToLower_of_ws (c : Char) (h : isJsWs c = true) : jsToLower c = c := by
  unfold isJsWs at h
  simp only [Bool.or_eq_true, decide_eq_true_eq] at h
  rcases h with (((((h | h) | h) | h) | h) | h) <;> rw [h] <;> decide

theorem getLastD_mem (l : List Char) (h : l ≠ []) : l.getLastD ' ' ∈ l := by
  induction l with
  | nil => exact absurd rfl h
  | cons c cs ih =>
    cases cs with
    | nil => simp [List.getLastD]
    | cons d ds =>
      rw [List.getLastD_cons]
      rw [show (d :: ds).getLastD c = (d :: ds).getLastD ' ' from by
        rw [List.getLastD_cons, List.getLastD_cons]]
      exact List.mem_cons_of_mem c (ih (by simp))

theorem scanFuel_nil (r : GRule) (f : Nat) (prev : Option Char) :
    scanFuel r f prev [] = ([], []) := by
  cases f <;> rfl

/-- If the rule's matcher fails on every non-empty suffix, the scan is
the identity and records no matches. -/
theorem scan_id (r : GRule) (l : List Char)
    (h : ∀ s', s' <:+ l → s' ≠ [] → r.tryM s' = none) :
    ∀ f prev, scanFuel r f prev l = (l, []) := by
  induction l with
  | nil => intro f prev; exact scanFuel_nil r f prev
  | cons c cs ih =>
    intro f prev
    cases f with
    | zero => rfl
    | succ f' =>
      have hnone : tryMatchAt r prev (c :: cs) = none := by
        unfold tryMatchAt
        by_cases hwb : wbOk prev = true
        · rw [if_pos hwb]
          exact h (c :: cs) (List.suffix_refl _) (by simp)
        · rw [if_neg hwb]
      show (match tryMatchAt r prev (c :: cs) with
        | some m =>
          let p := scanFuel r f' (some (m.matched.getLastD c)) m.rest
          (r.repl m.cap ++ p.1, (m.matched, m.cap) :: p.2)
        | none =>
          let p := scanFuel r f' (some c) cs
          (c :: p.1, p.2)) = (c :: cs, [])
      rw [hnone]
      have hrec := ih (fun s' hs hne => h s' (hs.trans (List.suffix_cons c cs)) hne) f' (some c)
      dsimp only
      rw [hrec]

/-- A position-0 match that consumes the whole input: the scan emits the
replacement and exactly that one match. -/
theorem runRule_full_match (r : GRule) (l cap : List Char) (hne : l ≠ [])
    (h : tryMatchAt r none l = some ⟨l, cap, []⟩) :
    runRule r l = (r.repl cap, [(l, cap)]) := by
  cases l with
  | nil => exact absurd rfl hne
  | cons c cs =>
    unfold runRule
    show scanFuel r (cs.length + 1) none (c :: cs) = _
    show (match tryMatchAt r none (c :: cs) with
      | some m =>
        let p := scanFuel r cs.length (some (m.matched.getLastD c)) m.rest
        (r.repl m.cap ++ p.1, (m.matched, m.cap) :: p.2)
      | none =>
        let p := scanFuel r cs.length (some c) cs
        (c :: p.1, p.2)) = (r.repl cap, [(c :: cs, cap)])
    rw [h]
    dsimp only
    rw [scanFuel_nil]
    simp

/-- Every match recorded by a scan arises from a successful attempt of
the rule's matcher at some position. -/
theorem scan_mem_src (r : GRule) :
    ∀ f prev l m cap, (m, cap) ∈ (scanFuel r f prev l).2 →
      ∃ prev' l' rest, tryMatchAt r prev' l' = some ⟨m, cap, rest⟩ := by
  intro f
  induction f with
  | zero =>
    intro prev l m cap hmem
    simp [scanFuel] at hmem
  | succ f' ih =>
    intro prev l m cap hmem
    cases l with
    | nil => simp [scanFuel] at hmem
    | cons c cs =>
      rcases ht : tryMatchAt r prev (c :: cs) with _ | mres
      · have : scanFuel r (f' + 1) prev (c :: cs) =
            (c :: (scanFuel r f' (some c) cs).1, (scanFuel r f' (some c) cs).2) := by
          show (match tryMatchAt r prev (c :: cs) with
            | some m =>
              let p := scanFuel r f' (some (m.matched.getLastD c)) m.rest
              (r.repl m.cap ++ p.1, (m.matched, m.cap) :: p.2)
            | none =>
              let p := scanFuel r f' (some c) cs
              (c :: p.1, p.2)) = _
          rw [ht]
        rw [this] at hmem
        exact ih (some c) cs m cap hmem
      · have : scanFuel r (f' + 1) prev (c :: cs) =
            (r.repl mres.cap ++ (scanFuel r f' (some (mres.matched.getLastD c)) mres.rest).1,
             (mres.matched, mres.cap) ::
               (scanFuel r f' (some (mres.matched.getLastD c)) mres.rest).2) := by
          show (match tryMatchAt r prev (c :: cs) with
            | some m =>
              let p := scanFuel r f' (some (m.matched.getLastD c)) m.rest
              (r.repl m.cap ++ p.1, (m.matched, m.cap) :: p.2)
            | none =>
              let p := scanFuel r f' (some c) cs
              (c :: p.1, p.2)) = _
          rw [ht]
        rw [this] at hmem
        rcases List.mem_cons.1 hmem with heq | htail
        · injection heq with e1 e2
          refine ⟨prev, c :: cs, mres.rest, ?_⟩
          rw [ht, e1, e2]
        · exact ih _ _ m cap htail

theorem ciMatch1 (a : Char) (pa : List Char) (h : ciMatch [a] pa = true) :
    ∃ p0, pa = [p0] ∧ ciEq a p0 = true := by
  cases pa with
  | nil => simp [ciMatch] at h
  | cons p0 ps =>
    cases ps with
    | nil =>
      simp only [ciMatch, Bool.and_eq_true] at h
      exact ⟨p0, rfl, h.1⟩
    | cons q qs => simp [ciMatch] at h

theorem ciMatch2 (a b : Char) (pa : List Char) (h : ciMatch [a, b] pa = true) :
    ∃ p0 p1, pa = [p0, p1] ∧ ciEq a p0 = true ∧ ciEq b p1 = true := by
  cases pa with
  | nil => simp [ciMatch] at h
  | cons p0 ps =>
    simp only [ciMatch, Bool.and_eq_true] at h
    obtain ⟨p1, hp, hci⟩ := ciMatch1 b ps h.2
    exact ⟨p0, p1, by rw [hp], h.1, hci⟩

theorem ciMatch3 (a b c : Char) (pa : List Char) (h : ciMatch [a, b, c] pa = true) :
    ∃ p0 p1 p2, pa = [p0, p1, p2] ∧ ciEq a p0 = true ∧ ciEq b p1 = true ∧
      ciEq c p2 = true := by
  cases pa with
  | nil => simp [ciMatch] at h
  | cons p0 ps =>
    simp only [ciMatch, Bool.and_eq_true] at h
    obtain ⟨p1, p2, hp, hci1, hci2⟩ := ciMatch2 b c ps h.2
    exact ⟨p0, p1, p2, by rw [hp], h.1, hci1, hci2⟩

theorem ciMatch4 (a b c d : Char) (pa : List Char) (h : ciMatch [a, b, c, d] pa = true) :
    ∃ p0 p1 p2 p3, pa = [p0, p1, p2, p3] ∧ ciEq a p0 = true ∧ ciEq b p1 = true ∧
      ciEq c p2 = true ∧ ciEq d p3 = true := by
  cases pa with
  | nil => simp [ciMatch] at h
  | cons p0 ps =>
    simp only [ciMatch, Bool.and_eq_true] at h
    obtain ⟨p1, p2, p3, hp, hci1, hci2, hci3⟩ := ciMatch3 b c d ps h.2
    exact ⟨p0, p1, p2, p3, by rw [hp], h.1, hci1, hci2, hci3⟩

theorem eq_take_of_append_eq (w vb sfx : List Char) (h : w ++ vb = sfx) :
    w = sfx.take w.length := by
  rw [← h, List.take_left]

theorem tryAlts_cons_none (a : List Char) (alts : List (List Char)) (verb l : List Char)
    (h : tryAlt a verb l = none) :
    tryAlts (a :: alts) verb l = tryAlts alts verb l := by
  conv_lhs => unfold tryAlts
  rw [h]

theorem tryAlts_cons_some (a : List Char) (alts : List (List Char)) (verb l : List Char)
    (m : MRes) (h : tryAlt a verb l = some m) :
    tryAlts (a :: alts) verb l = some m := by
  conv_lhs => unfold tryAlts
  rw [h]

theorem ws_append_ne_amis (w vb : List Char) (hws : ∀ c ∈ w, isJsWs c = true)
    (h3 : vb.length = 3) : w ++ vb ≠ " am/is".toList := by
  intro heq
  have hl : w.length = 3 := by
    have := congrArg List.length heq
    simp [h3] at this
    omega
  have h2 := eq_take_of_append_eq w vb (" am/is".toList) heq
  rw [hl] at h2
  have : isJsWs 'a' = true := hws 'a' (by rw [h2]; decide)
  exact absurd this (by decide)

/-- For every match of rule 1, replacing the matched span standalone
(`match[0].replace(...)`) yields a strictly different string. -/
theorem rule1_matched_ne (l : List Char) (mres : MRes) (h : rule1.tryM l = some mres) :
    mres.matched ≠ [] ∧ matchedReplaced rule1 mres.matched ≠ mres.matched := by
  obtain ⟨alt, halt, hsome⟩ := tryAlts_sound _ _ l mres h
  obtain ⟨pa, w, vb, hm, hcap, hpa, hw, hws, hvb, hl, hend⟩ := tryAlt_sound alt _ l mres hsome
  have hvb3 : vb.length = 3 := by rw [ciMatch_length _ _ hvb]; rfl
  obtain ⟨v0, v1, v2, hvb_eq, hv0, hv1, hv2⟩ := ciMatch3 'a' 'r' 'e' vb hvb
  have hvhead : ∀ d rs, vb = d :: rs → isJsWs d = false := by
    intro d rs hd
    rw [hvb_eq] at hd
    injection hd with h1 _
    rw [← h1]
    exact not_ws_of_ciEq 'a' v0 (by decide) hv0
  have hcomplete : tryAlt alt "are".toList mres.matched = some ⟨mres.matched, pa, []⟩ := by
    rw [hm]
    exact tryAlt_complete alt "are".toList pa w vb hpa hw hws hvb hvhead
  have hrescan : rule1.tryM mres.matched = some ⟨mres.matched, pa, []⟩ := by
    simp only [List.mem_cons, List.not_mem_nil, or_false] at halt
    rcases halt with rfl | rfl | rfl | rfl
    · show tryAlts _ _ _ = _
      rw [tryAlts_cons_some _ _ _ _ _ hcomplete]
    · obtain ⟨p0, p1, hpa_eq, hp0, hp1⟩ := ciMatch2 'h' 'e' pa hpa
      have hne_i : tryAlt "i".toList "are".toList mres.matched = none := by
        refine tryAlt_none_matchCI _ _ _ ?_
        rw [hm, hpa_eq]
        exact matchCI_cons_false 'i' [] p0 _ (ciEq_shift 'h' 'i' p0 hp0 (by decide))
      show tryAlts _ _ _ = _
      rw [tryAlts_cons_none _ _ _ _ hne_i, tryAlts_cons_some _ _ _ _ _ hcomplete]
    · obtain ⟨p0, p1, p2, hpa_eq, hp0, hp1, hp2⟩ := ciMatch3 's' 'h' 'e' pa hpa
      have hne_i : tryAlt "i".toList "are".toList mres.matched = none := by
        refine tryAlt_none_matchCI _ _ _ ?_
        rw [hm, hpa_eq]
        exact matchCI_cons_false 'i' [] p0 _ (ciEq_shift 's' 'i' p0 hp0 (by decide))
      have hne_he : tryAlt "he".toList "are".toList mres.matched = none := by
        refine tryAlt_none_matchCI _ _ _ ?_
        rw [hm, hpa_eq]
        exact matchCI_cons_false 'h' ['e'] p0 _ (ciEq_shift 's' 'h' p0 hp0 (by decide))
      show tryAlts _ _ _ = _
      rw [tryAlts_cons_none _ _ _ _ hne_i, tryAlts_cons_none _ _ _ _ hne_he,
        tryAlts_cons_some _ _ _ _ _ hcomplete]
    · obtain ⟨p0, p1, hpa_eq, hp0, hp1⟩ := ciMatch2 'i' 't' pa hpa
      have hmi : matchCI "i".toList mres.matched = some ([p0], p1 :: (w ++ vb)) := by
        rw [hm, hpa_eq]
        exact matchCI_of "i".toList [p0] (p1 :: (w ++ vb)) (by simp [ciMatch, hp0])
      have hne_i : tryAlt "i".toList "are".toList mres.matched = none :=
        tryAlt_none_ws_empty _ _ _ [p0] p1 (w ++ vb) hmi
          (not_ws_of_ciEq 't' p1 (by decide) hp1)
      have hne_he : tryAlt "he".toList "are".toList mres.matched = none := by
        refine tryAlt_none_matchCI _ _ _ ?_
        rw [hm, hpa_eq]
        exact matchCI_cons_false 'h' ['e'] p0 _ (ciEq_shift 'i' 'h' p0 hp0 (by decide))
      have hne_she : tryAlt "she".toList "are".toList mres.matched = none := by
        refine tryAlt_none_matchCI _ _ _ ?_
        rw [hm, hpa_eq]
        exact matchCI_cons_false 's' "he".toList p0 _ (ciEq_shift 'i' 's' p0 hp0 (by decide))
      show tryAlts _ _ _ = _
      rw [tryAlts_cons_none _ _ _ _ hne_i, tryAlts_cons_none _ _ _ _ hne_he,
        tryAlts_cons_none _ _ _ _ hne_she, tryAlts_cons_some _ _ _ _ _ hcomplete]
  have hpane : pa ≠ [] := by
    refine ciMatch_ne_nil alt pa ?_ hpa
    simp only [List.mem_cons, List.not_mem_nil, or_false] at halt
    rcases halt with rfl | rfl | rfl | rfl <;> simp
  have hmne : mres.matched ≠ [] := by
    rw [hm]
    simp [hpane]
  refine ⟨hmne, ?_⟩
  have hrun := runRule_full_match rule1 mres.matched pa hmne
    (by unfold tryMatchAt; rw [if_pos (by rfl)]; exact hrescan)
  unfold matchedReplaced
  rw [hrun]
  show pa ++ " am/is".toList ≠ mres.matched
  rw [hm]
  intro heq
  exact ws_append_ne_amis w vb hws hvb3 (List.append_cancel_left heq).symm

theorem ws_append_ne_are (w vb : List Char) (hws : ∀ c ∈ w, isJsWs c = true)
    (h2 : vb.length = 2) : w ++ vb ≠ " are".toList := by
  intro heq
  have hl : w.length = 2 := by
    have := congrArg List.length heq
    simp [h2] at this
    omega
  have htake := eq_take_of_append_eq w vb (" are".toList) heq
  rw [hl] at htake
  have : isJsWs 'a' = true := hws 'a' (by rw [htake]; decide)
  exact absurd this (by decide)

/-- For every match of rule 2, the standalone replacement differs. -/
theorem rule2_matched_ne (l : List Char) (mres : MRes) (h : rule2.tryM l = some mres) :
    mres.matched ≠ [] ∧ matchedReplaced rule2 mres.matched ≠ mres.matched := by
  obtain ⟨alt, halt, hsome⟩ := tryAlts_sound _ _ l mres h
  obtain ⟨pa, w, vb, hm, hcap, hpa, hw, hws, hvb, hl, hend⟩ := tryAlt_sound alt _ l mres hsome
  have hvb2 : vb.length = 2 := by rw [ciMatch_length _ _ hvb]; rfl
  obtain ⟨v0, v1, hvb_eq, hv0, hv1⟩ := ciMatch2 'i' 's' vb hvb
  have hvhead : ∀ d rs, vb = d :: rs → isJsWs d = false := by
    intro d rs hd
    rw [hvb_eq] at hd
    injection hd with h1 _
    rw [← h1]
    exact not_ws_of_ciEq 'i' v0 (by decide) hv0
  have hcomplete : tryAlt alt "is".toList mres.matched = some ⟨mres.matched, pa, []⟩ := by
    rw [hm]
    exact tryAlt_complete alt "is".toList pa w vb hpa hw hws hvb hvhead
  have hrescan : rule2.tryM mres.matched = some ⟨mres.matched, pa, []⟩ := by
    simp only [List.mem_cons, List.not_mem_nil, or_false] at halt
    rcases halt with rfl | rfl | rfl | rfl
    · show tryAlts _ _ _ = _
      rw [tryAlts_cons_some _ _ _ _ _ hcomplete]
    · obtain ⟨p0, p1, p2, hpa_eq, hp0, hp1, hp2⟩ := ciMatch3 'y' 'o' 'u' pa hpa
      have hne_i : tryAlt "i".toList "is".toList mres.matched = none := by
        refine tryAlt_none_matchCI _ _ _ ?_
        rw [hm, hpa_eq]
        exact matchCI_cons_false 'i' [] p0 _ (ciEq_shift 'y' 'i' p0 hp0 (by decide))
      show tryAlts _ _ _ = _
      rw [tryAlts_cons_none _ _ _ _ hne_i, tryAlts_cons_some _ _ _ _ _ hcomplete]
    · obtain ⟨p0, p1, hpa_eq, hp0, hp1⟩ := ciMatch2 'w' 'e' pa hpa
      have hne_i : tryAlt "i".toList "is".toList mres.matched = none := by
        refine tryAlt_none_matchCI _ _ _ ?_
        rw [hm, hpa_eq]
        exact matchCI_cons_false 'i' [] p0 _ (ciEq_shift 'w' 'i' p0 hp0 (by decide))
      have hne_you : tryAlt "you".toList "is".toList mres.matched = none := by
        refine tryAlt_none_matchCI _ _ _ ?_
        rw [hm, hpa_eq]
        exact matchCI_cons_false 'y' "ou".toList p0 _ (ciEq_shift 'w' 'y' p0 hp0 (by decide))
      show tryAlts _ _ _ = _
      rw [tryAlts_cons_none _ _ _ _ hne_i, tryAlts_cons_none _ _ _ _ hne_you,
        tryAlts_cons_some _ _ _ _ _ hcomplete]
    · obtain ⟨p0, p1, p2, p3, hpa_eq, hp0, hp1, hp2, hp3⟩ := ciMatch4 't' 'h' 'e' 'y' pa hpa
      have hne_i : tryAlt "i".toList "is".toList mres.matched = none := by
        refine tryAlt_none_matchCI _ _ _ ?_
        rw [hm, hpa_eq]
        exact matchCI_cons_false 'i' [] p0 _ (ciEq_shift 't' 'i' p0 hp0 (by decide))
      have hne_you : tryAlt "you".toList "is".toList mres.matched = none := by
        refine tryAlt_none_matchCI _ _ _ ?_
        rw [hm, hpa_eq]
        exact matchCI_cons_false 'y' "ou".toList p0 _ (ciEq_shift 't' 'y' p0 hp0 (by decide))
      have hne_we : tryAlt "we".toList "is".toList mres.matched = none := by
        refine tryAlt_none_matchCI _ _ _ ?_
        rw [hm, hpa_eq]
        exact matchCI_cons_false 'w' ['e'] p0 _ (ciEq_shift 't' 'w' p0 hp0 (by decide))
      show tryAlts _ _ _ = _
      rw [tryAlts_cons_none _ _ _ _ hne_i, tryAlts_cons_none _ _ _ _ hne_you,
        tryAlts_cons_none _ _ _ _ hne_we, tryAlts_cons_some _ _ _ _ _ hcomplete]
  have hpane : pa ≠ [] := by
    refine ciMatch_ne_nil alt pa ?_ hpa
    simp only [List.mem_cons, List.not_mem_nil, or_false] at halt
    rcases halt with rfl | rfl | rfl | rfl <;> simp
  have hmne : mres.matched ≠ [] := by
    rw [hm]
    simp [hpane]
  refine ⟨hmne, ?_⟩
  have hrun := runRule_full_match rule2 mres.matched pa hmne
    (by unfold tryMatchAt; rw [if_pos (by rfl)]; exact hrescan)
  unfold matchedReplaced
  rw [hrun]
  show pa ++ " are".toList ≠ mres.matched
  rw [hm]
  intro heq
  exact ws_append_ne_are w vb hws hvb2 (List.append_cancel_left heq).symm

/-- For every match of rule 3, the standalone replacement differs. -/
theorem rule3_matched_ne (l : List Char) (mres : MRes) (h : rule3.tryM l = some mres) :
    mres.matched ≠ [] ∧ matchedReplaced rule3 mres.matched ≠ mres.matched := by
  obtain ⟨alt, halt, hsome⟩ := tryAlts_sound _ _ l mres h
  obtain ⟨pa, w, vb, hm, hcap, hpa, hw, hws, hvb, hl, hend⟩ := tryAlt_sound alt _ l mres hsome
  have hvb3 : vb.length = 3 := by rw [ciMatch_length _ _ hvb]; rfl
  obtain ⟨v0, v1, v2, hvb_eq, hv0, hv1, hv2⟩ := ciMatch3 'h' 'a' 's' vb hvb
  have hvhead : ∀ d rs, vb = d :: rs → isJsWs d = false := by
    intro d rs hd
    rw [hvb_eq] at hd
    injection hd with h1 _
    rw [← h1]
    exact not_ws_of_ciEq 'h' v0 (by decide) hv0
  have hcomplete : tryAlt alt "has".toList mres.matched = some ⟨mres.matched, pa, []⟩ := by
    rw [hm]
    exact tryAlt_complete alt "has".toList pa w vb hpa hw hws hvb hvhead
  simp only [List.mem_cons, List.not_mem_nil, or_false] at halt
  subst halt
  obtain ⟨p0, hpa_eq, hp0⟩ := ciMatch1 'i' pa hpa
  have hrescan : rule3.tryM mres.matched = some ⟨mres.matched, pa, []⟩ := by
    show tryAlts _ _ _ = _
    rw [tryAlts_cons_some _ _ _ _ _ hcomplete]
  have hmne : mres.matched ≠ [] := by
    rw [hm, hpa_eq]
    simp
  refine ⟨hmne, ?_⟩
  have hrun := runRule_full_match rule3 mres.matched pa hmne
    (by unfold tryMatchAt; rw [if_pos (by rfl)]; exact hrescan)
  unfold matchedReplaced
  rw [hrun]
  show "I have".toList ≠ mres.matched
  rw [hm, hpa_eq]
  intro heq
  have heq2 : ('I' : Char) :: " have".toList = p0 :: (w ++ vb) := heq
  have htail : (" have".toList : List Char) = w ++ vb := by
    injection heq2
  have hl2 : w.length = 2 := by
    have := congrArg List.length htail
    simp [hvb3] at this
    omega
  have htake := eq_take_of_append_eq w vb (" have".toList) htail.symm
  rw [hl2] at htake
  have : isJsWs 'h' = true := hws 'h' (by rw [htake]; decide)
  exact absurd this (by decide)

/-- For every match of rule 4, the standalone replacement differs. -/
theorem rule4_matched_ne (l : List Char) (mres : MRes) (h : rule4.tryM l = some mres) :
    mres.matched ≠ [] ∧ matchedReplaced rule4 mres.matched ≠ mres.matched := by
  obtain ⟨alt, halt, hsome⟩ := tryAlts_sound _ _ l mres h
  obtain ⟨pa, w, vb, hm, hcap, hpa, hw, hws, hvb, hl, hend⟩ := tryAlt_sound alt _ l mres hsome
  have hvb4 : vb.length = 4 := by rw [ciMatch_length _ _ hvb]; rfl
  obtain ⟨v0, v1, v2, v3, hvb_eq, hv0, hv1, hv2, hv3⟩ := ciMatch4 'h' 'a' 'v' 'e' vb hvb
  have hvhead : ∀ d rs, vb = d :: rs → isJsWs d = false := by
    intro d rs hd
    rw [hvb_eq] at hd
    injection hd with h1 _
    rw [← h1]
    exact not_ws_of_ciEq 'h' v0 (by decide) hv0
  have hcomplete : tryAlt alt "have".toList mres.matched = some ⟨mres.matched, pa, []⟩ := by
    rw [hm]
    exact tryAlt_complete alt "have".toList pa w vb hpa hw hws hvb hvhead
  have hrescan : rule4.tryM mres.matched = some ⟨mres.matched, pa, []⟩ := by
    simp only [List.mem_cons, List.not_mem_nil, or_false] at halt
    rcases halt with rfl | rfl | rfl
    · show tryAlts _ _ _ = _
      rw [tryAlts_cons_some _ _ _ _ _ hcomplete]
    · obtain ⟨p0, p1, p2, hpa_eq, hp0, hp1, hp2⟩ := ciMatch3 's' 'h' 'e' pa hpa
      have hne_he : tryAlt "he".toList "have".toList mres.matched = none := by
        refine tryAlt_none_matchCI _ _ _ ?_
        rw [hm, hpa_eq]
        exact matchCI_cons_false 'h' ['e'] p0 _ (ciEq_shift 's' 'h' p0 hp0 (by decide))
      show tryAlts _ _ _ = _
      rw [tryAlts_cons_none _ _ _ _ hne_he, tryAlts_cons_some _ _ _ _ _ hcomplete]
    · obtain ⟨p0, p1, hpa_eq, hp0, hp1⟩ := ciMatch2 'i' 't' pa hpa
      have hne_he : tryAlt "he".toList "have".toList mres.matched = none := by
        refine tryAlt_none_matchCI _ _ _ ?_
        rw [hm, hpa_eq]
        exact matchCI_cons_false 'h' ['e'] p0 _ (ciEq_shift 'i' 'h' p0 hp0 (by decide))
      have hne_she : tryAlt "she".toList "have".toList mres.matched = none := by
        refine tryAlt_none_matchCI _ _ _ ?_
        rw [hm, hpa_eq]
        exact matchCI_cons_false 's' "he".toList p0 _ (ciEq_shift 'i' 's' p0 hp0 (by decide))
      show tryAlts _ _ _ = _
      rw [tryAlts_cons_none _ _ _ _ hne_he, tryAlts_cons_none _ _ _ _ hne_she,
        tryAlts_cons_some _ _ _ _ _ hcomplete]
  have hpane : pa ≠ [] := by
    refine ciMatch_ne_nil alt pa ?_ hpa
    simp only [List.mem_cons, List.not_mem_nil, or_false] at halt
    rcases halt with rfl | rfl | rfl <;> simp
  have hmne : mres.matched ≠ [] := by
    rw [hm]
    simp [hpane]
  refine ⟨hmne, ?_⟩
  have hrun := runRule_full_match rule4 mres.matched pa hmne
    (by unfold tryMatchAt; rw [if_pos (by rfl)]; exact hrescan)
  unfold matchedReplaced
  rw [hrun]
  show pa ++ " has".toList ≠ mres.matched
  rw [hm]
  intro heq
  have htail := (List.append_cancel_left heq).symm
  have hlen := congrArg List.length htail
  rw [List.length_append, hvb4, show ((" has".toList : List Char)).length = 4 from by decide]
    at hlen
  have : w.length = 0 := by omega
  exact hw (List.length_eq_zero.1 this)

theorem dropWhile_head_false (p : Char → Bool) (l : List Char) (d : Char) (r : List Char)
    (h : l.dropWhile p = d :: r) : p d = false := by
  induction l with
  | nil => simp [List.dropWhile] at h
  | cons c cs ih =>
    by_cases hc : p c = true
    · rw [List.dropWhile_cons_of_pos hc] at h
      exact ih h
    · rw [List.dropWhile_cons_of_neg hc] at h
      injection h with h1 _
      rw [← h1]
      simpa using hc

/-- Shape of every successful rule 5 match. -/
theorem tryA_sound (l : List Char) (mres : MRes) (h : tryA l = some mres) :
    ∃ c w d, ciEq 'a' c = true ∧ w ≠ [] ∧ (∀ x ∈ w, isJsWs x = true) ∧
      isVowelCI d = true ∧ mres.matched = c :: (w ++ [d]) ∧ mres.cap = [d] := by
  cases l with
  | nil => simp [tryA] at h
  | cons c r1 =>
    unfold tryA at h
    dsimp only at h
    by_cases hc : ciEq 'a' c = true
    · rw [if_pos hc] at h
      by_cases hwE : (r1.takeWhile isJsWs).isEmpty = true
      · rw [if_pos hwE] at h; exact absurd h (by simp)
      · rw [if_neg hwE] at h
        rcases hr2 : r1.dropWhile isJsWs with _ | ⟨d, r3⟩
        · rw [hr2] at h; exact absurd h (by simp)
        · rw [hr2] at h
          dsimp only at h
          by_cases hv : isVowelCI d = true
          · rw [if_pos hv] at h
            injection h with h2
            refine ⟨c, r1.takeWhile isJsWs, d, hc, by simpa using hwE,
              fun x hx => List.mem_takeWhile_imp hx, hv, ?_, ?_⟩
            · rw [← h2]
            · rw [← h2]
          · rw [if_neg hv] at h
            exact absurd h (by simp)
    · rw [if_neg hc] at h
      exact absurd h (by simp)

/-- For every match of rule 5, the standalone replacement differs. -/
theorem rule5_matched_ne (l : List Char) (mres : MRes) (h : rule5.tryM l = some mres) :
    mres.matched ≠ [] ∧ matchedReplaced rule5 mres.matched ≠ mres.matched := by
  obtain ⟨c, w, d, hc, hw, hws, hv, hm, hcap⟩ := tryA_sound l mres h
  have hdws : isJsWs d = false := not_ws_of_vowel d hv
  have hrescan : tryA (c :: (w ++ [d])) = some ⟨c :: (w ++ [d]), [d], []⟩ := by
    obtain ⟨ht, hd⟩ := wsRun_split w [d] hws (fun x rs hx => by
      injection hx with h1 _
      rw [← h1]
      exact hdws)
    simp only [tryA]
    rw [if_pos hc, ht, hd, if_neg (by simp [hw])]
    simp only [if_pos hv]
  have hmne : mres.matched ≠ [] := by rw [hm]; simp
  refine ⟨hmne, ?_⟩
  have hrun := runRule_full_match rule5 mres.matched [d] hmne
    (by unfold tryMatchAt; rw [if_pos (by rfl)]; rw [hm]; exact hrescan)
  unfold matchedReplaced
  rw [hrun]
  show "an ".toList ++ [d] ≠ mres.matched
  rw [hm]
  intro heq
  have heq2 : ('a' : Char) :: ('n' :: (' ' :: [d])) = c :: (w ++ [d]) := heq
  have htail : ('n' : Char) :: (' ' :: [d]) = w ++ [d] := by injection heq2
  have hl2 : w.length = 2 := by
    have hlen := congrArg List.length htail
    simp at hlen
    omega
  have htake := eq_take_of_append_eq w [d] (('n' : Char) :: (' ' :: [d])) htail.symm
  rw [hl2] at htake
  have hwn : w = ['n', ' '] := htake
  have : isJsWs 'n' = true := hws 'n' (by rw [hwn]; decide)
  exact absurd this (by decide)

/-- Shape of every successful rule 6 match: either the direct non-vowel
capture, or the backtracking case that captures the run's last
whitespace character. -/
theorem tryAn_sound (l : List Char) (mres : MRes) (h : tryAn l = some mres) :
    ∃ c1 c2 w, ciEq 'a' c1 = true ∧ ciEq 'n' c2 = true ∧ w ≠ [] ∧
      (∀ x ∈ w, isJsWs x = true) ∧
      ((∃ d, isJsWs d = false ∧ isVowelCI d = false ∧
          mres.matched = c1 :: c2 :: (w ++ [d]) ∧ mres.cap = [d]) ∨
       (2 ≤ w.length ∧ mres.matched = c1 :: c2 :: w ∧ mres.cap = [w.getLastD ' '])) := by
  cases l with
  | nil => simp [tryAn] at h
  | cons c1 l1 =>
    cases l1 with
    | nil => simp [tryAn] at h
    | cons c2 r1 =>
      simp only [tryAn] at h
      by_cases hc : (ciEq 'a' c1 && ciEq 'n' c2) = true
      · rw [if_pos hc] at h
        obtain ⟨hc1, hc2⟩ := Bool.and_eq_true_iff.1 hc
        by_cases hwE : (r1.takeWhile isJsWs).isEmpty = true
        · rw [if_pos hwE] at h; exact absurd h (by simp)
        · rw [if_neg hwE] at h
          rcases hr2 : r1.dropWhile isJsWs with _ | ⟨d, r3⟩
          · rw [hr2] at h
            simp only [tryAnAfterWs] at h
            by_cases h2w : 2 ≤ (r1.takeWhile isJsWs).length
            · rw [if_pos h2w] at h
              injection h with h2
              refine ⟨c1, c2, r1.takeWhile isJsWs, hc1, hc2, by simpa using hwE,
                fun x hx => List.mem_takeWhile_imp hx, Or.inr ⟨h2w, ?_, ?_⟩⟩
              · rw [← h2]
              · rw [← h2]
            · rw [if_neg h2w] at h
              exact absurd h (by simp)
          · rw [hr2] at h
            simp only [tryAnAfterWs] at h
            by_cases hv : isVowelCI d = true
            · rw [if_pos hv] at h
              by_cases h2w : 2 ≤ (r1.takeWhile isJsWs).length
              · rw [if_pos h2w] at h
                injection h with h2
                refine ⟨c1, c2, r1.takeWhile isJsWs, hc1, hc2, by simpa using hwE,
                  fun x hx => List.mem_takeWhile_imp hx, Or.inr ⟨h2w, ?_, ?_⟩⟩
                · rw [← h2]
                · rw [← h2]
              · rw [if_neg h2w] at h
                exact absurd h (by simp)
            · rw [if_neg hv] at h
              injection h with h2
              refine ⟨c1, c2, r1.takeWhile isJsWs, hc1, hc2, by simpa using hwE,
                fun x hx => List.mem_takeWhile_imp hx,
                Or.inl ⟨d, dropWhile_head_false isJsWs r1 d r3 hr2, by simpa using hv, ?_, ?_⟩⟩
              · rw [← h2]
              · rw [← h2]
      · rw [if_neg hc] at h
        exact absurd h (by simp)

/-- For every match of rule 6, the standalone replacement differs. -/
theorem rule6_matched_ne (l : List Char) (mres : MRes) (h : rule6.tryM l = some mres) :
    mres.matched ≠ [] ∧ matchedReplaced rule6 mres.matched ≠ mres.matched := by
  obtain ⟨c1, c2, w, hc1, hc2, hw, hws, hcase⟩ := tryAn_sound l mres h
  rcases hcase with ⟨d, hdws, hdv, hm, hcap⟩ | ⟨h2w, hm, hcap⟩
  · have hrescan : tryAn (c1 :: c2 :: (w ++ [d])) = some ⟨c1 :: c2 :: (w ++ [d]), [d], []⟩ := by
      obtain ⟨ht, hd⟩ := wsRun_split w [d] hws (fun x rs hx => by
        injection hx with h1 _
        rw [← h1]
        exact hdws)
      simp only [tryAn]
      rw [if_pos (by simp [hc1, hc2]), ht, hd, if_neg (by simp [hw])]
      simp only [tryAnAfterWs]
      rw [if_neg (by simp [hdv])]
    have hmne : mres.matched ≠ [] := by rw [hm]; simp
    refine ⟨hmne, ?_⟩
    have hrun := runRule_full_match rule6 mres.matched [d] hmne
      (by unfold tryMatchAt; rw [if_pos (by rfl)]; rw [hm]; exact hrescan)
    unfold matchedReplaced
    rw [hrun]
    show "a ".toList ++ [d] ≠ mres.matched
    rw [hm]
    intro heq
    have heq2 : ('a' : Char) :: (' ' :: [d]) = c1 :: c2 :: (w ++ [d]) := heq
    injection heq2 with e1 h2
    injection h2 with e2 h3
    have hlen := congrArg List.length h3
    simp at hlen
    exact hw hlen
  · have hrescan : tryAn (c1 :: c2 :: w) = some ⟨c1 :: c2 :: w, [w.getLastD ' '], []⟩ := by
      obtain ⟨ht, hd⟩ := wsRun_split w [] hws (fun x rs hx => by simp at hx)
      rw [List.append_nil] at ht hd
      simp only [tryAn]
      rw [if_pos (by simp [hc1, hc2]), ht, hd, if_neg (by simp [hw])]
      simp only [tryAnAfterWs]
      rw [if_pos h2w]
    have hmne : mres.matched ≠ [] := by rw [hm]; simp
    refine ⟨hmne, ?_⟩
    have hrun := runRule_full_match rule6 mres.matched [w.getLastD ' '] hmne
      (by unfold tryMatchAt; rw [if_pos (by rfl)]; rw [hm]; exact hrescan)
    unfold matchedReplaced
    rw [hrun]
    show "a ".toList ++ [w.getLastD ' '] ≠ mres.matched
    rw [hm]
    intro heq
    have heq2 : ('a' : Char) :: (' ' :: [w.getLastD ' ']) = c1 :: c2 :: w := heq
    injection heq2 with e1 h2
    injection h2 with e2 h3
    rw [← h3] at h2w
    simp at h2w

/-- Spelling changes are only pushed under the `word !== correctedWord`
guard, so they are never no-ops. -/
theorem spellTokens_changes_ne (ts : List (List Char)) (out : List Char)
    (chs : List Change) (h : spellTokens ts = Except.ok (out, chs)) :
    ∀ ch ∈ chs, ch.original ≠ ch.corrected := by
  induction ts generalizing out chs with
  | nil =>
    unfold spellTokens at h
    injection h with h2
    injection h2 with _ h3
    rw [← h3]
    intro ch hch
    simp at hch
  | cons w ws ih =>
    unfold spellTokens at h
    rcases hs : spellStep w with e | ⟨cw, ch1⟩
    · rw [hs] at h; exact absurd h (by simp)
    · rw [hs] at h
      rcases ht : spellTokens ws with e | ⟨rest, chs2⟩
      · rw [ht] at h; exact absurd h (by simp)
      · rw [ht] at h
        injection h with h2
        injection h2 with _ h3
        intro ch hch
        rw [← h3] at hch
        rcases List.mem_append.1 hch with h1 | h1
        · unfold spellStep at hs
          rcases hj : jsLookup (w.map jsToLower) with _ | hit
          · rw [hj] at hs
            injection hs with hs2
            injection hs2 with _ hs3
            rw [← hs3] at h1
            simp at h1
          · rw [hj] at hs
            cases hit with
            | protoObj => exact absurd hs (by simp)
            | val v =>
              dsimp only at hs
              by_cases hwc : w = preserveCase w v
              · rw [if_pos hwc] at hs
                injection hs with hs2
                injection hs2 with _ hs3
                rw [← hs3] at h1
                simp at h1
              · rw [if_neg hwc] at hs
                injection hs with hs2
                injection hs2 with _ hs3
                rw [← hs3] at h1
                rcases List.mem_singleton.1 h1 with rfl
                simpa using hwc
        · exact ih rest chs2 ht ch h1

/-- Every change produced by the grammar fold comes from a successful
match attempt of one of the rules. -/
theorem foldl_grammar_changes (rules : List GRule) (acc : List Char × List Change)
    (ch : Change) (h : ch ∈ (rules.foldl grammarStep acc).2) :
    ch ∈ acc.2 ∨ ∃ r ∈ rules, ∃ m cap rest prev' l',
      tryMatchAt r prev' l' = some ⟨m, cap, rest⟩ ∧
      ch = ⟨ChangeKind.grammar, m, matchedReplaced r m, r.message⟩ := by
  induction rules generalizing acc with
  | nil => exact Or.inl h
  | cons r rest ih =>
    rw [List.foldl_cons] at h
    rcases ih (grammarStep acc r) h with hacc | ⟨r', hr', m, cap, rst, prev', l', htry, hch⟩
    · unfold grammarStep at hacc
      rcases List.mem_append.1 hacc with h1 | h1
      · exact Or.inl h1
      · obtain ⟨p, hp, hf⟩ := List.mem_filterMap.1 h1
        by_cases hpe : p.1.isEmpty = true
        · rw [if_pos hpe] at hf
          exact absurd hf (by simp)
        · rw [if_neg hpe] at hf
          injection hf with hf2
          obtain ⟨prev', l', rst, htry⟩ :=
            scan_mem_src r (acc.1.length) none acc.1 p.1 p.2 (by
              have : (p.1, p.2) = p := rfl
              rw [this]
              exact hp)
          exact Or.inr ⟨r, by simp, p.1, p.2, rst, prev', l', htry, hf2.symm⟩
    · exact Or.inr ⟨r', by simp [hr'], m, cap, rst, prev', l', htry, hch⟩

/-- Dispatch: for any rule of the table, a matched span never equals its
standalone replacement. -/
theorem grammar_matched_ne (r : GRule) (hr : r ∈ grammarRules) (prev' : Option Char)
    (l' m cap rest : List Char) (h : tryMatchAt r prev' l' = some ⟨m, cap, rest⟩) :
    matchedReplaced r m ≠ m := by
  have htry : r.tryM l' = some ⟨m, cap, rest⟩ := by
    unfold tryMatchAt at h
    by_cases hwb : wbOk prev' = true
    · rwa [if_pos hwb] at h
    · rw [if_neg hwb] at h
      exact absurd h (by simp)
  simp only [grammarRules, List.mem_cons, List.not_mem_nil, or_false] at hr
  rcases hr with rfl | rfl | rfl | rfl | rfl | rfl
  · exact (rule1_matched_ne l' ⟨m, cap, rest⟩ htry).2
  · exact (rule2_matched_ne l' ⟨m, cap, rest⟩ htry).2
  · exact (rule3_matched_ne l' ⟨m, cap, rest⟩ htry).2
  · exact (rule4_matched_ne l' ⟨m, cap, rest⟩ htry).2
  · exact (rule5_matched_ne l' ⟨m, cap, rest⟩ htry).2
  · exact (rule6_matched_ne l' ⟨m, cap, rest⟩ htry).2

/-- Claim C6: for every input and options, every recorded change — from
the spelling pass (guarded by `word !== correctedWord`) and from the
grammar pass (whose `match[0].replace(...)` always rewrites the span)
alike — has a corrected span that differs, string-exactly, from its
original span. -/
theorem c6_no_noop_changes (v : JsVal) (opts : COptions) (r : JsResult) (ch : Change)
    (h : correctJs v opts = Except.ok r) (hch : ch ∈ r.changes) :
    ch.original ≠ ch.corrected := by
  unfold correctJs at h
  by_cases hguard : (!truthy v || !isStr v) = true
  · rw [if_pos hguard] at h
    injection h with h2
    rw [← h2] at hch
    simp at hch
  · rw [if_neg hguard] at h
    cases v with
    | vNum n => exact absurd (by simp [isStr]) hguard
    | vNaN => exact absurd (by simp [isStr]) hguard
    | vBool b => exact absurd (by simp [isStr]) hguard
    | vNull => exact absurd (by simp [isStr]) hguard
    | vUndefined => exact absurd (by simp [isStr]) hguard
    | vObj => exact absurd (by simp [isStr]) hguard
    | vStr s =>
      rcases hc : correctL s.toList opts with e | cr
      · dsimp only at h
        rw [hc] at h
        exact absurd h (by simp)
      · dsimp only at h
        rw [hc] at h
        injection h with h2
        rw [← h2] at hch
        dsimp only at hch
        unfold correctL at hc
        by_cases hse : s.toList.isEmpty = true
        · rw [if_pos hse] at hc
          injection hc with hc2
          rw [← hc2] at hch
          simp at hch
        · rw [if_neg hse] at hc
          dsimp only at hc
          rcases hsp : (if opts.spellCheck then spellCorrectL (jsTrim s.toList)
              else Except.ok (jsTrim s.toList, [])) with e | ⟨sc, chs1⟩
          · rw [hsp] at hc
            exact absurd hc (by simp)
          · rw [hsp] at hc
            dsimp only at hc
            injection hc with hc2
            rw [← hc2] at hch
            dsimp only at hch
            rcases List.mem_append.1 hch with h1 | h1
            · by_cases hs : opts.spellCheck = true
              · rw [if_pos hs] at hsp
                unfold spellCorrectL at hsp
                exact spellTokens_changes_ne _ _ _ hsp ch h1
              · rw [if_neg hs] at hsp
                injection hsp with hsp2
                injection hsp2 with _ hsp3
                rw [← hsp3] at h1
                simp at h1
            · by_cases hg : opts.grammarCheck = true
              · rw [if_pos hg] at h1
                rcases foldl_grammar_changes grammarRules (sc, []) ch h1 with hnil |
                  ⟨r', hr', m, cap, rst, prev', l', htry, hcheq⟩
                · simp at hnil
                · rw [hcheq]
                  dsimp only
                  exact fun hcontra => grammar_matched_ne r' hr' prev' l' m cap rst htry hcontra.symm
              · rw [if_neg hg] at h1
                simp at h1

/-- Claim C6, witness: the theorem applied to the spelling change that
`correct("teh cat")` records. -/
theorem c6_no_noop_changes_witness :
    (⟨ChangeKind.spelling, "teh".toList, "the".toList,
      spellMsg "teh".toList "the".toList⟩ : Change).original ≠
    (⟨ChangeKind.spelling, "teh".toList, "the".toList,
      spellMsg "teh".toList "the".toList⟩ : Change).corrected :=
  c6_no_noop_changes (JsVal.vStr "teh cat") ⟨true, true⟩
    ⟨JsVal.vStr "teh cat", JsVal.vStr "the cat", JsVal.vStr "the cat",
      [⟨ChangeKind.spelling, "teh".toList, "the".toList,
        spellMsg "teh".toList "the".toList⟩]⟩
    ⟨ChangeKind.spelling, "teh".toList, "the".toList,
      spellMsg "teh".toList "the".toList⟩
    (by decide) (by decide)

/-- Claim C9, counterexample: rule 6 fires although the character after
"an" is the digit `'5'` — not a consonant letter — rewriting `"an 5"` to
`"a 5"`; it also fires before a vowel-initial word when two spaces
separate it (`"an  apple"` → `"a  apple"`, the `\s+` backtracking case),
refuting the claimed "if and only if the first character of the
following word is a consonant letter". -/
theorem c9_counterexample :
    grammarCorrectL "an 5".toList =
      ("a 5".toList,
       [⟨ChangeKind.grammar, "an 5".toList, "a 5".toList, rule6.message⟩]) ∧
    ('5'.isAlpha = false) ∧
    (grammarCorrectL "an  apple".toList).1 = "a  apple".toList ∧
    ('a'.isAlpha = true ∧ isVowelCI 'a' = true) := by
  exact ⟨by decide, by decide, by decide, by decide, by decide⟩

/-- Claim C9, amended: with `an` at a word boundary followed by a
non-empty whitespace run `w` and then `t` (the run maximal), rule 6's
matcher succeeds if and only if either the next character exists and is
not a vowel letter — it may be a digit, punctuation, any non-vowel — or
the whitespace run has length at least two (then `[^aeiou]` consumes the
run's last whitespace character by backtracking, regardless of what
follows, even a vowel or the end of input). -/
theorem c9_rule6_amended (a0 n0 : Char) (w t : List Char)
    (ha : ciEq 'a' a0 = true) (hn : ciEq 'n' n0 = true)
    (hw : w ≠ []) (hws : ∀ c ∈ w, isJsWs c = true)
    (ht : ∀ d rs, t = d :: rs → isJsWs d = false) :
    (tryAn (a0 :: n0 :: (w ++ t))).isSome = true ↔
      ((∃ d rs, t = d :: rs ∧ isVowelCI d = false) ∨ 2 ≤ w.length) := by
  obtain ⟨htake, hdrop⟩ := wsRun_split w t hws ht
  simp only [tryAn]
  rw [if_pos (by simp [ha, hn]), htake, hdrop, if_neg (by simp [hw])]
  cases t with
  | nil =>
    simp only [tryAnAfterWs]
    by_cases h2w : 2 ≤ w.length
    · rw [if_pos h2w]
      simp [h2w]
    · rw [if_neg h2w]
      simp [h2w]
  | cons d rs =>
    simp only [tryAnAfterWs]
    by_cases hv : isVowelCI d = true
    · rw [if_pos hv]
      by_cases h2w : 2 ≤ w.length
      · rw [if_pos h2w]
        simp only [Option.isSome_some, true_iff]
        exact Or.inr h2w
      · rw [if_neg h2w]
        simp only [Option.isSome_none, Bool.false_eq_true, false_iff]
        rintro (⟨d', rs', hdd, hdv⟩ | hlen)
        · injection hdd with e1 _
          rw [← e1] at hdv
          rw [hv] at hdv
          exact absurd hdv (by decide)
        · exact h2w hlen
    · rw [if_neg hv]
      simp only [Option.isSome_some, true_iff]
      exact Or.inl ⟨d, rs, rfl, by simpa using hv⟩

/-- Claim C9, witness for the amended theorem: `"an 5"` — single space,
next character a digit — satisfies the characterization. -/
theorem c9_rule6_amended_witness :
    (tryAn ('a' :: 'n' :: ([' '] ++ "5".toList))).isSome = true ↔
      ((∃ d rs, "5".toList = d :: rs ∧ isVowelCI d = false) ∨ 2 ≤ ([' '] : List Char).length) :=
  c9_rule6_amended 'a' 'n' [' '] "5".toList (by decide) (by decide) (by decide)
    (by intro c hc; simp at hc; rw [hc]; decide)
    (by intro d rs hd; injection hd with e1 _; rw [← e1]; decide)

theorem tryAlts_nil (verb l : List Char) : tryAlts [] verb l = none := rfl

/-- All the pronoun rules' alternatives start with a letter, so no match
attempt can begin at a whitespace character. -/
theorem tryAlts_ws_head (alts : List (List Char)) (verb : List Char)
    (halts : (alts.all (fun a =>
      match a with
      | [] => false
      | a0 :: _ => !isJsWs (jsToLower a0))) = true)
    (c : Char) (rest : List Char) (hc : isJsWs c = true) :
    tryAlts alts verb (c :: rest) = none := by
  induction alts with
  | nil => rfl
  | cons a as ih =>
    rw [List.all_cons, Bool.and_eq_true] at halts
    cases a with
    | nil => simp at halts
    | cons a0 as0 =>
      have ha0 : isJsWs (jsToLower a0) = false := by
        have := halts.1
        simpa using this
      rw [tryAlts_cons_none _ _ _ _ (tryAlt_none_matchCI _ _ _
        (matchCI_cons_false a0 as0 c rest (not_ciEq_of_ws a0 c ha0 hc)))]
      exact ih halts.2

theorem suffix_append_cases (s' a b : List Char) (h : s' <:+ a ++ b) :
    s' <:+ b ∨ ∃ a', a' <:+ a ∧ a' ≠ [] ∧ s' = a' ++ b := by
  obtain ⟨pre, hpre⟩ := h
  rcases List.append_eq_append_iff.1 hpre with ⟨a', ha1, ha2⟩ | ⟨c', _, hb⟩
  · rcases a' with _ | ⟨x, xs⟩
    · left
      rw [ha2]
      exact List.suffix_refl b
    · right
      exact ⟨x :: xs, ⟨pre, ha1.symm⟩, by simp, ha2⟩
  · left
    exact ⟨c', hb.symm⟩

theorem suffix_singleton (s' : List Char) (x : Char) (h : s' <:+ [x]) (hne : s' ≠ []) :
    s' = [x] := by
  obtain ⟨pre, hpre⟩ := h
  rcases pre with _ | ⟨c, pre'⟩
  · exact hpre
  · rcases pre' with _ | ⟨c2, pre''⟩ <;> simp_all

theorem suffix_has (s' : List Char) (h : s' <:+ "has".toList) :
    s' = [] ∨ s' = "s".toList ∨ s' = "as".toList ∨ s' = "has".toList := by
  obtain ⟨pre, hpre⟩ := h
  rcases pre with _ | ⟨c1, _ | ⟨c2, _ | ⟨c3, _ | ⟨c4, pre⟩⟩⟩⟩ <;> simp_all

/-- Lowercasing fixes whitespace characters. -/
theorem map_toLower_ws (w : List Char) (hws : ∀ c ∈ w, isJsWs c = true) :
    w.map jsToLower = w := by
  induction w with
  | nil => rfl
  | cons c cs ih =>
    rw [List.map_cons, jsToLower_of_ws c (hws c (by simp)),
      ih (fun a ha => hws a (by simp [ha]))]

/-- A whitespace run never hits the dictionary nor the prototype names
(their keys all start with a word character). -/
theorem jsLookup_ws_none (w : List Char) (hw : w ≠ []) (hws : ∀ c ∈ w, isJsWs c = true) :
    jsLookup (w.map jsToLower) = none := by
  rw [map_toLower_ws w hws]
  cases w with
  | nil => exact absurd rfl hw
  | cons w0 w' =>
    have hw0 : isJsWs w0 = true := hws w0 (by simp)
    unfold jsLookup dictLookup
    have hfind : dictL.find? (fun p => p.1 == w0 :: w') = none := by
      rw [List.find?_eq_none]
      intro p hp
      have hall : (dictL.all (fun p =>
          match p.1 with
          | [] => false
          | k0 :: _ => !isJsWs k0)) = true := by decide
      rw [List.all_eq_true] at hall
      have hk := hall p hp
      rcases hk1 : p.1 with _ | ⟨k0, ks⟩
      · rw [hk1] at hk
        simp at hk
      · rw [hk1] at hk
        simp only [beq_iff_eq, hk1]
        intro hcontra
        injection hcontra with e1 _
        rw [e1] at hk
        simp [hw0] at hk
    rw [hfind]
    simp only [Option.map_none']
    rw [if_neg ?_]
    intro hcontra
    rcases (by simpa using hcontra :
        (w0 = 'c' ∧ w' = ['o','n','s','t','r','u','c','t','o','r']) ∨
        (w0 = '_' ∧ w' = ['_','p','r','o','t','o','_','_'])) with ⟨h1, _⟩ | ⟨h1, _⟩
    · rw [h1] at hw0
      exact absurd hw0 (by decide)
    · rw [h1] at hw0
      exact absurd hw0 (by decide)

/-- Rule 1 finds no match anywhere in `"I" ++ whitespace ++ "has"`. -/
theorem rule1_none_on (w : List Char) (hw : w ≠ []) (hws : ∀ c ∈ w, isJsWs c = true) :
    ∀ s', s' <:+ ('I' :: (w ++ "has".toList)) → s' ≠ [] → rule1.tryM s' = none := by
  intro s' hsfx hne
  rcases suffix_append_cases s' ['I'] (w ++ "has".toList) hsfx with hcase | ⟨a', ha', hane, heq⟩
  · rcases suffix_append_cases s' w "has".toList hcase with hcase2 | ⟨w'', hw'', hwne, heq2⟩
    · rcases suffix_has s' hcase2 with rfl | rfl | rfl | rfl
      · exact absurd rfl hne
      · decide
      · decide
      · decide
    · rcases w'' with _ | ⟨c, rest⟩
      · exact absurd rfl hwne
      · have hc : isJsWs c = true := hws c (hw''.subset (by simp))
        rw [heq2]
        exact tryAlts_ws_head _ _ (by decide) c (rest ++ "has".toList) hc
  · rw [suffix_singleton a' 'I' ha' hane] at heq
    rw [heq]
    show tryAlts _ _ (['I'] ++ (w ++ "has".toList)) = none
    cases w with
    | nil => exact absurd rfl hw
    | cons w0 w' =>
      have hw0 : isJsWs w0 = true := hws w0 (by simp)
      have hdrop : ((w0 :: w') ++ "has".toList).dropWhile isJsWs = "has".toList :=
        (wsRun_split (w0 :: w') "has".toList hws (by
          intro d rs hd
          injection hd with e1 _
          rw [← e1]
          decide)).2
      have hne_i : tryAlt "i".toList "are".toList (['I'] ++ ((w0 :: w') ++ "has".toList)) =
          none := by
        refine tryAlt_none_verb _ _ _ ['I'] ((w0 :: w') ++ "has".toList)
          (matchCI_of "i".toList ['I'] _ (by decide)) ?_
        rw [hdrop]
        exact matchCI_cons_false 'a' "re".toList 'h' _ (by decide)
      have hne_he : tryAlt "he".toList "are".toList (['I'] ++ ((w0 :: w') ++ "has".toList)) =
          none :=
        tryAlt_none_matchCI _ _ _ (matchCI_cons_false 'h' ['e'] 'I' _ (by decide))
      have hne_she : tryAlt "she".toList "are".toList (['I'] ++ ((w0 :: w') ++ "has".toList)) =
          none :=
        tryAlt_none_matchCI _ _ _ (matchCI_cons_false 's' "he".toList 'I' _ (by decide))
      have hne_it : tryAlt "it".toList "are".toList (['I'] ++ ((w0 :: w') ++ "has".toList)) =
          none := by
        refine tryAlt_none_matchCI _ _ _ ?_
        show matchCI ('i' :: ['t']) ('I' :: ((w0 :: w') ++ "has".toList)) = none
        unfold matchCI
        rw [if_pos (by decide)]
        rw [show (w0 :: w') ++ "has".toList = w0 :: (w' ++ "has".toList) from rfl]
        rw [matchCI_cons_false 't' [] w0 _ (not_ciEq_of_ws 't' w0 (by decide) hw0)]
        rfl
      rw [tryAlts_cons_none _ _ _ _ hne_i, tryAlts_cons_none _ _ _ _ hne_he,
        tryAlts_cons_none _ _ _ _ hne_she, tryAlts_cons_none _ _ _ _ hne_it, tryAlts_nil]

/-- Rule 2 finds no match anywhere in `"I" ++ whitespace ++ "has"`. -/
theorem rule2_none_on (w : List Char) (hw : w ≠ []) (hws : ∀ c ∈ w, isJsWs c = true) :
    ∀ s', s' <:+ ('I' :: (w ++ "has".toList)) → s' ≠ [] → rule2.tryM s' = none := by
  intro s' hsfx hne
  rcases suffix_append_cases s' ['I'] (w ++ "has".toList) hsfx with hcase | ⟨a', ha', hane, heq⟩
  · rcases suffix_append_cases s' w "has".toList hcase with hcase2 | ⟨w'', hw'', hwne, heq2⟩
    · rcases suffix_has s' hcase2 with rfl | rfl | rfl | rfl
      · exact absurd rfl hne
      · decide
      · decide
      · decide
    · rcases w'' with _ | ⟨c, rest⟩
      · exact absurd rfl hwne
      · have hc : isJsWs c = true := hws c (hw''.subset (by simp))
        rw [heq2]
        exact tryAlts_ws_head _ _ (by decide) c (rest ++ "has".toList) hc
  · rw [suffix_singleton a' 'I' ha' hane] at heq
    rw [heq]
    show tryAlts _ _ (['I'] ++ (w ++ "has".toList)) = none
    cases w with
    | nil => exact absurd rfl hw
    | cons w0 w' =>
      have hdrop : ((w0 :: w') ++ "has".toList).dropWhile isJsWs = "has".toList :=
        (wsRun_split (w0 :: w') "has".toList hws (by
          intro d rs hd
          injection hd with e1 _
          rw [← e1]
          decide)).2
      have hne_i : tryAlt "i".toList "is".toList (['I'] ++ ((w0 :: w') ++ "has".toList)) =
          none := by
        refine tryAlt_none_verb _ _ _ ['I'] ((w0 :: w') ++ "has".toList)
          (matchCI_of "i".toList ['I'] _ (by decide)) ?_
        rw [hdrop]
        exact matchCI_cons_false 'i' ['s'] 'h' _ (by decide)
      have hne_you : tryAlt "you".toList "is".toList (['I'] ++ ((w0 :: w') ++ "has".toList)) =
          none :=
        tryAlt_none_matchCI _ _ _ (matchCI_cons_false 'y' "ou".toList 'I' _ (by decide))
      have hne_we : tryAlt "we".toList "is".toList (['I'] ++ ((w0 :: w') ++ "has".toList)) =
          none :=
        tryAlt_none_matchCI _ _ _ (matchCI_cons_false 'w' ['e'] 'I' _ (by decide))
      have hne_they : tryAlt "they".toList "is".toList (['I'] ++ ((w0 :: w') ++ "has".toList)) =
          none :=
        tryAlt_none_matchCI _ _ _ (matchCI_cons_false 't' "hey".toList 'I' _ (by decide))
      rw [tryAlts_cons_none _ _ _ _ hne_i, tryAlts_cons_none _ _ _ _ hne_you,
        tryAlts_cons_none _ _ _ _ hne_we, tryAlts_cons_none _ _ _ _ hne_they, tryAlts_nil]

theorem grammarStep_id (acc : List Char × List Change) (r : GRule)
    (h : runRule r acc.1 = (acc.1, [])) : grammarStep acc r = acc := by
  unfold grammarStep
  rw [h]
  simp

/-- The tokens of `"I" ++ whitespace ++ "has"`. -/
theorem tokenize_I_ws_has (w : List Char) (hw : w ≠ []) (hws : ∀ c ∈ w, isJsWs c = true) :
    tokenize ('I' :: (w ++ "has".toList)) = [['I'], w, "has".toList] := by
  cases w with
  | nil => exact absurd rfl hw
  | cons w0 w' =>
    have hlast : isWordChar ((w0 :: w').getLastD ' ') = false :=
      ws_not_word _ (hws _ (getLastD_mem (w0 :: w') (by simp)))
    have hrunsW : runsBy isWordChar ((w0 :: w') ++ "has".toList) =
        [w0 :: w'] ++ [ "has".toList ] := by
      rw [show ((w0 :: w') ++ "has".toList : List Char) =
        (w0 :: w') ++ 'h' :: "as".toList from rfl]
      rw [runsBy_append isWordChar (w0 :: w') 'h' "as".toList (by simp)
        (by rw [hlast]; decide)]
      rw [runsBy_single isWordChar w0 w' (fun a ha => by
        rw [ws_not_word a (hws a ha), ws_not_word w0 (hws w0 (by simp))])]
      rfl
    show runsBy isWordChar (['I'] ++ ((w0 :: w') ++ "has".toList)) = _
    rw [show (['I'] ++ ((w0 :: w') ++ "has".toList) : List Char) =
      ['I'] ++ w0 :: (w' ++ "has".toList) from by simp]
    rw [runsBy_append isWordChar ['I'] w0 (w' ++ "has".toList) (by simp) (by
      rw [show (['I'] : List Char).getLastD ' ' = 'I' from rfl,
        ws_not_word w0 (hws w0 (by simp))]
      decide)]
    rw [show (w0 :: (w' ++ "has".toList) : List Char) = (w0 :: w') ++ "has".toList from by simp,
      hrunsW]
    rfl

/-- On a span `"I" ++ whitespace-run ++ "has"` with any non-empty
internal whitespace run, the grammar pass replaces the whole matched
span by rule 3's fixed template `"I have"` — a single space — so the
original inter-word whitespace is collapsed there; the spelling pass, by
contrast, returns the same string verbatim (whitespace preserved
exactly) with no changes. -/
theorem grammar_collapses_I_has (w : List Char) (hw : w ≠ [])
    (hws : ∀ c ∈ w, isJsWs c = true) :
    grammarCorrectL ('I' :: (w ++ "has".toList)) =
      ("I have".toList,
       [⟨ChangeKind.grammar, 'I' :: (w ++ "has".toList), "I have".toList, rule3.message⟩]) ∧
    spellCorrectL ('I' :: (w ++ "has".toList)) =
      Except.ok ('I' :: (w ++ "has".toList), []) := by
  constructor
  · have h1 : runRule rule1 ('I' :: (w ++ "has".toList)) = ('I' :: (w ++ "has".toList), []) :=
      scan_id rule1 _ (rule1_none_on w hw hws) _ none
    have h2 : runRule rule2 ('I' :: (w ++ "has".toList)) = ('I' :: (w ++ "has".toList), []) :=
      scan_id rule2 _ (rule2_none_on w hw hws) _ none
    have hmatch3 : tryMatchAt rule3 none ('I' :: (w ++ "has".toList)) =
        some ⟨'I' :: (w ++ "has".toList), ['I'], []⟩ := by
      unfold tryMatchAt
      rw [if_pos (by rfl)]
      show tryAlts _ _ _ = _
      refine tryAlts_cons_some _ _ _ _ _ ?_
      exact tryAlt_complete "i".toList "has".toList ['I'] w "has".toList (by decide) hw hws
        (by decide) (by
          intro d rs hd
          injection hd with e1 _
          rw [← e1]
          decide)
    have h3 : runRule rule3 ('I' :: (w ++ "has".toList)) =
        ("I have".toList, [('I' :: (w ++ "has".toList), ['I'])]) :=
      runRule_full_match rule3 _ ['I'] (by simp) hmatch3
    have hmr3 : matchedReplaced rule3 ('I' :: (w ++ "has".toList)) = "I have".toList := by
      unfold matchedReplaced
      rw [h3]
    have h4 : runRule rule4 "I have".toList = ("I have".toList, []) := by decide
    have h5 : runRule rule5 "I have".toList = ("I have".toList, []) := by decide
    have h6 : runRule rule6 "I have".toList = ("I have".toList, []) := by decide
    show grammarRules.foldl grammarStep ('I' :: (w ++ "has".toList), []) = _
    show [rule1, rule2, rule3, rule4, rule5, rule6].foldl grammarStep _ = _
    simp only [List.foldl_cons, List.foldl_nil]
    rw [grammarStep_id _ rule1 h1, grammarStep_id _ rule2 h2]
    have hstep3 : grammarStep ('I' :: (w ++ "has".toList), []) rule3 =
        ("I have".toList,
         [⟨ChangeKind.grammar, 'I' :: (w ++ "has".toList), "I have".toList,
           rule3.message⟩]) := by
      unfold grammarStep
      rw [h3]
      simp only [List.nil_append, List.filterMap]
      rw [if_neg (show ¬ (('I' :: (w ++ "has".toList)).isEmpty = true) from by simp), hmr3]
    rw [hstep3, grammarStep_id _ rule4 h4, grammarStep_id _ rule5 h5,
      grammarStep_id _ rule6 h6]
  · unfold spellCorrectL
    rw [tokenize_I_ws_has w hw hws]
    rw [spellTokens_id_of_nomatch [['I'], w, "has".toList] (by
      intro u hu
      rcases List.mem_cons.1 hu with rfl | hu2
      · decide
      · rcases List.mem_cons.1 hu2 with rfl | hu3
        · exact jsLookup_ws_none u hw hws
        · rcases List.mem_cons.1 hu3 with rfl | hu4
          · decide
          · simp at hu4)]
    simp [joinL]

theorem suffix_pair (s' : List Char) (x y : Char) (h : s' <:+ [x, y]) (hne : s' ≠ []) :
    s' = [y] ∨ s' = [x, y] := by
  obtain ⟨pre, hpre⟩ := h
  rcases pre with _ | ⟨c1, _ | ⟨c2, pre2⟩⟩
  · right
    exact hpre
  · left
    injection hpre with _ e2
  · injection hpre with _ h2
    injection h2 with _ h3
    exact absurd (List.append_eq_nil.1 h3).2 hne

/-- An alternation whose alternatives all start with a letter that is
not case-equal to the input's first character fails immediately. -/
theorem tryAlts_head_none (alts : List (List Char)) (verb : List Char)
    (c : Char) (rest : List Char)
    (halts : (alts.all (fun a =>
      match a with
      | [] => false
      | a0 :: _ => !ciEq a0 c)) = true) :
    tryAlts alts verb (c :: rest) = none := by
  induction alts with
  | nil => rfl
  | cons a as ih =>
    rw [List.all_cons, Bool.and_eq_true] at halts
    cases a with
    | nil => simp at halts
    | cons a0 as0 =>
      have ha0 : ciEq a0 c = false := by
        have := halts.1
        simpa using this
      rw [tryAlts_cons_none _ _ _ _ (tryAlt_none_matchCI _ _ _
        (matchCI_cons_false a0 as0 c rest ha0))]
      exact ih halts.2

/-- None of the pronoun alternations can match anywhere inside
`"an" ++ whitespace-run`: every suffix starts with `'a'`, `'n'` or a
whitespace character, none of which begins an alternative. -/
theorem tryAlts_none_on_an (alts : List (List Char)) (verb : List Char)
    (v : List Char) (c : Char) (hall : ∀ x ∈ v ++ [c], isJsWs x = true)
    (hwsh : (alts.all (fun a =>
      match a with
      | [] => false
      | a0 :: _ => !isJsWs (jsToLower a0))) = true)
    (hah : (alts.all (fun a =>
      match a with
      | [] => false
      | a0 :: _ => !ciEq a0 'a')) = true)
    (hnh : (alts.all (fun a =>
      match a with
      | [] => false
      | a0 :: _ => !ciEq a0 'n')) = true) :
    ∀ s', s' <:+ ('a' :: 'n' :: (v ++ [c])) → s' ≠ [] → tryAlts alts verb s' = none := by
  intro s' hsfx hne
  rcases suffix_append_cases s' ['a', 'n'] (v ++ [c]) hsfx with hcase | ⟨a', ha', hane, heq⟩
  · cases s' with
    | nil => exact absurd rfl hne
    | cons x rest =>
      have hx : isJsWs x = true := hall x (hcase.subset (by simp))
      exact tryAlts_ws_head alts verb hwsh x rest hx
  · rcases suffix_pair a' 'a' 'n' ha' hane with rfl | rfl
    · rw [heq]
      exact tryAlts_head_none alts verb 'n' (v ++ [c]) hnh
    · rw [heq]
      exact tryAlts_head_none alts verb 'a' ('n' :: (v ++ [c])) hah

theorem tryA_none_head (x : Char) (rest : List Char) (h : ciEq 'a' x = false) :
    tryA (x :: rest) = none := by
  unfold tryA
  dsimp only
  rw [h]
  rfl

/-- Rule 5 cannot start at the `'a'` of `"an"`: the greedy `\s+` needs a
whitespace character right after the `a`, but `'n'` follows. -/
theorem tryA_an_none (rest : List Char) : tryA ('a' :: 'n' :: rest) = none := by
  have ht : ('n' :: rest).takeWhile isJsWs = [] := by
    simp [List.takeWhile, show isJsWs 'n' = false from by decide]
  unfold tryA
  dsimp only
  rw [if_pos (by decide)]
  rw [ht]
  rfl

/-- Rule 5 finds no match anywhere in `"an" ++ whitespace-run`. -/
theorem rule5_none_on_an (v : List Char) (c : Char)
    (hall : ∀ x ∈ v ++ [c], isJsWs x = true) :
    ∀ s', s' <:+ ('a' :: 'n' :: (v ++ [c])) → s' ≠ [] → rule5.tryM s' = none := by
  intro s' hsfx hne
  rcases suffix_append_cases s' ['a', 'n'] (v ++ [c]) hsfx with hcase | ⟨a', ha', hane, heq⟩
  · cases s' with
    | nil => exact absurd rfl hne
    | cons x rest =>
      have hx : isJsWs x = true := hall x (hcase.subset (by simp))
      exact tryA_none_head x rest (not_ciEq_of_ws 'a' x (by decide) hx)
  · rcases suffix_pair a' 'a' 'n' ha' hane with rfl | rfl
    · rw [heq]
      exact tryA_none_head 'n' (v ++ [c]) (by decide)
    · rw [heq]
      exact tryA_an_none (v ++ [c])

/-- Rule 6's matcher on `"an"` followed by a whitespace run of length at
least two that ends the input: the greedy `\s+` hits the end, `[^aeiou]`
backtracks into the run and captures its final whitespace character, so
the match consumes the whole input. -/
theorem tryAn_an_full (v : List Char) (c : Char) (hv : v ≠ [])
    (hall : ∀ x ∈ v ++ [c], isJsWs x = true) :
    tryAn ('a' :: 'n' :: (v ++ [c])) = some ⟨'a' :: 'n' :: (v ++ [c]), [c], []⟩ := by
  have hsplit := wsRun_split (v ++ [c]) [] hall (by intro d rs hd; simp at hd)
  have ht : (v ++ [c]).takeWhile isJsWs = v ++ [c] := by
    have := hsplit.1
    simpa using this
  have hd : (v ++ [c]).dropWhile isJsWs = [] := by
    have := hsplit.2
    simpa using this
  have h2 : 2 ≤ (v ++ [c]).length := by
    have h1 : 0 < v.length := List.length_pos.2 hv
    rw [List.length_append, List.length_singleton]
    omega
  unfold tryAn
  dsimp only
  rw [if_pos (by decide), ht, hd, if_neg (by simp)]
  unfold tryAnAfterWs
  rw [if_pos h2]
  rw [show (v ++ [c]).getLastD ' ' = c from by simp]

/-- The grammar pass on `"an"` followed by an all-whitespace run of
length at least two at the end of input: only rule 6 fires, via its
backtracking case, replacing the whole string by `"a"`, a single space,
and the captured final whitespace character — so the output still
contains a two-character whitespace run. -/
theorem grammar_an_ws_end (v : List Char) (c : Char) (hv : v ≠ [])
    (hvs : ∀ x ∈ v, isJsWs x = true) (hc : isJsWs c = true) :
    grammarCorrectL ('a' :: 'n' :: (v ++ [c])) =
      (['a', ' ', c],
       [⟨ChangeKind.grammar, 'a' :: 'n' :: (v ++ [c]), ['a', ' ', c], rule6.message⟩]) := by
  have hall : ∀ x ∈ v ++ [c], isJsWs x = true := by
    intro x hx
    rcases List.mem_append.1 hx with h | h
    · exact hvs x h
    · rw [List.mem_singleton.1 h]
      exact hc
  have hr1 : ∀ s', s' <:+ ('a' :: 'n' :: (v ++ [c])) → s' ≠ [] → rule1.tryM s' = none := by
    intro s' hs hn
    show tryAlts ["i".toList, "he".toList, "she".toList, "it".toList] "are".toList s' = none
    exact tryAlts_none_on_an _ _ v c hall (by decide) (by decide) (by decide) s' hs hn
  have hr2 : ∀ s', s' <:+ ('a' :: 'n' :: (v ++ [c])) → s' ≠ [] → rule2.tryM s' = none := by
    intro s' hs hn
    show tryAlts ["i".toList, "you".toList, "we".toList, "they".toList] "is".toList s' = none
    exact tryAlts_none_on_an _ _ v c hall (by decide) (by decide) (by decide) s' hs hn
  have hr3 : ∀ s', s' <:+ ('a' :: 'n' :: (v ++ [c])) → s' ≠ [] → rule3.tryM s' = none := by
    intro s' hs hn
    show tryAlts ["i".toList] "has".toList s' = none
    exact tryAlts_none_on_an _ _ v c hall (by decide) (by decide) (by decide) s' hs hn
  have hr4 : ∀ s', s' <:+ ('a' :: 'n' :: (v ++ [c])) → s' ≠ [] → rule4.tryM s' = none := by
    intro s' hs hn
    show tryAlts ["he".toList, "she".toList, "it".toList] "have".toList s' = none
    exact tryAlts_none_on_an _ _ v c hall (by decide) (by decide) (by decide) s' hs hn
  have h1 : runRule rule1 ('a' :: 'n' :: (v ++ [c])) = ('a' :: 'n' :: (v ++ [c]), []) :=
    scan_id rule1 _ hr1 _ none
  have h2 : runRule rule2 ('a' :: 'n' :: (v ++ [c])) = ('a' :: 'n' :: (v ++ [c]), []) :=
    scan_id rule2 _ hr2 _ none
  have h3 : runRule rule3 ('a' :: 'n' :: (v ++ [c])) = ('a' :: 'n' :: (v ++ [c]), []) :=
    scan_id rule3 _ hr3 _ none
  have h4 : runRule rule4 ('a' :: 'n' :: (v ++ [c])) = ('a' :: 'n' :: (v ++ [c]), []) :=
    scan_id rule4 _ hr4 _ none
  have h5 : runRule rule5 ('a' :: 'n' :: (v ++ [c])) = ('a' :: 'n' :: (v ++ [c]), []) :=
    scan_id rule5 _ (rule5_none_on_an v c hall) _ none
  have hmatch6 : tryMatchAt rule6 none ('a' :: 'n' :: (v ++ [c])) =
      some ⟨'a' :: 'n' :: (v ++ [c]), [c], []⟩ := by
    unfold tryMatchAt
    rw [if_pos (by rfl)]
    show tryAn ('a' :: 'n' :: (v ++ [c])) = _
    exact tryAn_an_full v c hv hall
  have h6 : runRule rule6 ('a' :: 'n' :: (v ++ [c])) =
      (['a', ' ', c], [('a' :: 'n' :: (v ++ [c]), [c])]) := by
    have h := runRule_full_match rule6 _ [c] (by simp) hmatch6
    have hrep : rule6.repl [c] = ['a', ' ', c] := rfl
    rw [hrep] at h
    exact h
  have hmr6 : matchedReplaced rule6 ('a' :: 'n' :: (v ++ [c])) = ['a', ' ', c] := by
    unfold matchedReplaced
    rw [h6]
  show grammarRules.foldl grammarStep ('a' :: 'n' :: (v ++ [c]), []) = _
  show [rule1, rule2, rule3, rule4, rule5, rule6].foldl grammarStep _ = _
  simp only [List.foldl_cons, List.foldl_nil]
  rw [grammarStep_id _ rule1 h1, grammarStep_id _ rule2 h2, grammarStep_id _ rule3 h3,
    grammarStep_id _ rule4 h4, grammarStep_id _ rule5 h5]
  unfold grammarStep
  rw [h6]
  simp only [List.nil_append, List.filterMap]
  rw [if_neg (show ¬ (('a' :: 'n' :: (v ++ [c])).isEmpty = true) from by simp), hmr6]

/-- Claim C10, counterexample: the grammar pass does not collapse the
whitespace inside every matched span. In `"an  egg"` rule 6 matches the
span `"an  "` — `\s+` takes one space and `[^aeiou]` backtracks onto the
second — and the template `'a $1'` re-emits the captured space, so the
replacement `"a  "` still contains a two-space run: the result is
`"a  egg"`, not the single-spaced `"a egg"` the claim predicts. -/
theorem c10_counterexample :
    grammarCorrectL "an  egg".toList =
      ("a  egg".toList,
       [⟨ChangeKind.grammar, "an  ".toList, "a  ".toList, rule6.message⟩]) ∧
    (grammarCorrectL "an  egg".toList).1 ≠ "a egg".toList := by
  exact ⟨by decide, by decide⟩

/-- Claim C10, amended: rules with a fully fixed template do collapse
the matched span's internal whitespace — for every non-empty whitespace
run `w`, `"I" ++ w ++ "has"` is rewritten to `"I have"` (single space)
while the spelling pass returns it verbatim with no changes — but rule
6's template `'a $1'` re-emits the captured character, and in its
backtracking case (run of length at least two, here at the end of
input) that character is the run's last whitespace character: the span
`"an" ++ v ++ [c]` becomes `['a', ' ', c]`, which still contains a
two-character whitespace run, so the whitespace inside that matched
span is not collapsed to a single space. -/
theorem c10_whitespace_amended (w v : List Char) (c : Char) (hw : w ≠ [])
    (hws : ∀ x ∈ w, isJsWs x = true) (hv : v ≠ [])
    (hvs : ∀ x ∈ v, isJsWs x = true) (hc : isJsWs c = true) :
    (grammarCorrectL ('I' :: (w ++ "has".toList)) =
       ("I have".toList,
        [⟨ChangeKind.grammar, 'I' :: (w ++ "has".toList), "I have".toList, rule3.message⟩]) ∧
     spellCorrectL ('I' :: (w ++ "has".toList)) =
       Except.ok ('I' :: (w ++ "has".toList), [])) ∧
    grammarCorrectL ('a' :: 'n' :: (v ++ [c])) =
      (['a', ' ', c],
       [⟨ChangeKind.grammar, 'a' :: 'n' :: (v ++ [c]), ['a', ' ', c], rule6.message⟩]) :=
  ⟨grammar_collapses_I_has w hw hws, grammar_an_ws_end v c hv hvs hc⟩

/-- Claim C10, witness for the amended theorem: the two-space span
`"I  has"` collapses to `"I have"`, while `"an"` before a two-space run
at the end of input becomes `"a"` followed by two spaces. -/
theorem c10_whitespace_amended_witness :
    (grammarCorrectL ('I' :: ("  ".toList ++ "has".toList)) =
       ("I have".toList,
        [⟨ChangeKind.grammar, 'I' :: ("  ".toList ++ "has".toList), "I have".toList,
          rule3.message⟩]) ∧
     spellCorrectL ('I' :: ("  ".toList ++ "has".toList)) =
       Except.ok ('I' :: ("  ".toList ++ "has".toList), [])) ∧
    grammarCorrectL ('a' :: 'n' :: ([' '] ++ [' '])) =
      (['a', ' ', ' '],
       [⟨ChangeKind.grammar, 'a' :: 'n' :: ([' '] ++ [' ']), ['a', ' ', ' '],
         rule6.message⟩]) :=
  c10_whitespace_amended "  ".toList [' '] ' ' (by decide) (by decide) (by decide)
    (by decide) (by decide)

/-- The pure per-token action of the spelling pass (the value the `map`
callback returns on the non-throwing path). -/
def fTok (w : List Char) : List Char :=
  match jsLookup (w.map jsToLower) with
  | some (LookupHit.val v) => preserveCase w v
  | _ => w

/-- On the non-throwing path, `spellTokens` computes exactly the join of
the per-token images, and no token hits a prototype name. -/
theorem spellTokens_ok (ts : List (List Char)) (out : List Char) (chs : List Change)
    (h : spellTokens ts = Except.ok (out, chs)) :
    out = joinL (ts.map fTok) ∧
    ∀ t ∈ ts, jsLookup (t.map jsToLower) ≠ some LookupHit.protoObj := by
  induction ts generalizing out chs with
  | nil =>
    unfold spellTokens at h
    injection h with h2
    injection h2 with h3 _
    exact ⟨h3.symm, by simp⟩
  | cons w ws ih =>
    unfold spellTokens at h
    rcases hs : spellStep w with e | ⟨cw, ch1⟩
    · rw [hs] at h; exact absurd h (by simp)
    · rw [hs] at h
      rcases ht : spellTokens ws with e | ⟨rest, chs2⟩
      · rw [ht] at h; exact absurd h (by simp)
      · rw [ht] at h
        injection h with h2
        injection h2 with h3 _
        obtain ⟨ih1, ih2⟩ := ih rest chs2 ht
        have hstep : cw = fTok w ∧ jsLookup (w.map jsToLower) ≠ some LookupHit.protoObj := by
          unfold spellStep at hs
          unfold fTok
          rcases hj : jsLookup (w.map jsToLower) with _ | hit
          · rw [hj] at hs
            injection hs with hs2
            injection hs2 with hs3 _
            exact ⟨hs3.symm, by simp⟩
          · rw [hj] at hs
            cases hit with
            | protoObj => exact absurd hs (by simp)
            | val v =>
              dsimp only at hs
              by_cases hwc : w = preserveCase w v
              · rw [if_pos hwc] at hs
                injection hs with hs2
                injection hs2 with hs3 _
                exact ⟨hs3.symm, by simp⟩
              · rw [if_neg hwc] at hs
                injection hs with hs2
                injection hs2 with hs3 _
                exact ⟨hs3.symm, by simp⟩
        refine ⟨?_, ?_⟩
        · rw [← h3, hstep.1, ih1]
          rfl
        · intro t htm
          rcases List.mem_cons.1 htm with rfl | htm2
          · exact hstep.2
          · exact ih2 t htm2

/-- `preserveCase` always returns one of the three case variants. -/
theorem preserveCase_mem_variants (o v : List Char) :
    preserveCase o v = v.map jsToUpper ∨ preserveCase o v = capitalizeJs v ∨
    preserveCase o v = v.map jsToLower := by
  unfold preserveCase
  by_cases h1 : o.map jsToUpper = o
  · rw [if_pos h1]
    exact Or.inl rfl
  · rw [if_neg h1]
    by_cases h2 : firstUpper o = true
    · rw [if_pos h2]
      exact Or.inr (Or.inl rfl)
    · rw [if_neg h2]
      exact Or.inr (Or.inr rfl)

/-- Every dictionary key starts with a word character. -/
theorem dict_keys_word : (dictL.all (fun p =>
    match p.1 with
    | [] => false
    | k0 :: _ => isWordChar k0)) = true := by
  decide

/-- Every case variant of every dictionary value is non-empty, starts
and ends with a word character, and none of its word-boundary tokens
(after lowercasing) hits the dictionary or a prototype name. -/
theorem dict_variants_good : (dictL.all (fun p =>
    ([p.2.map jsToUpper, capitalizeJs p.2, p.2.map jsToLower]).all (fun u =>
      (!u.isEmpty) && isWordChar (u.headD 'x') && isWordChar (u.getLastD ' ') &&
      ((runsBy isWordChar u).all (fun t => (jsLookup (t.map jsToLower)).isNone))))) = true := by
  decide

/-- A token starting with a non-word character misses the dictionary and
the prototype names. -/
theorem jsLookup_nonword_none (t0 : Char) (t' : List Char) (h : isWordChar t0 = false) :
    jsLookup ((t0 :: t').map jsToLower) = none := by
  have hlw : isWordChar (jsToLower t0) = false := by rw [jsToLower_word]; exact h
  unfold jsLookup dictLookup
  have hfind : dictL.find? (fun p => p.1 == jsToLower t0 :: t'.map jsToLower) = none := by
    rw [List.find?_eq_none]
    intro p hp
    have hall := List.all_eq_true.1 dict_keys_word p hp
    rcases hk1 : p.1 with _ | ⟨k0, ks⟩
    · rw [hk1] at hall
      simp at hall
    · rw [hk1] at hall
      dsimp only at hall
      simp only [beq_iff_eq, hk1]
      intro hcontra
      injection hcontra with e1 _
      rw [e1, hlw] at hall
      simp at hall
  rw [show ((t0 :: t').map jsToLower : List Char) = jsToLower t0 :: t'.map jsToLower from rfl]
  rw [hfind]
  simp only [Option.map_none']
  rw [if_neg ?_]
  intro hcontra
  rcases (by simpa using hcontra :
      (jsToLower t0 = 'c' ∧ t'.map jsToLower = ['o','n','s','t','r','u','c','t','o','r']) ∨
      (jsToLower t0 = '_' ∧ t'.map jsToLower = ['_','p','r','o','t','o','_','_'])) with
    ⟨h1, _⟩ | ⟨h1, _⟩
  · rw [h1] at hlw
    exact absurd hlw (by decide)
  · rw [h1] at hlw
    exact absurd hlw (by decide)

/-- Elements of an alternating chain are non-empty and homogeneous. -/
theorem altRuns_mem (f : Char → Bool) (b : Bool) (rs : List (List Char))
    (h : AltRuns f b rs) (t : List Char) (ht : t ∈ rs) :
    t ≠ [] ∧ ∃ b', ∀ c ∈ t, f c = b' := by
  induction h with
  | nil => simp at ht
  | cons b w rs hne hhom htail ih =>
    rcases List.mem_cons.1 ht with rfl | ht2
    · exact ⟨hne, b, hhom⟩
    · exact ih ht2

/-- Every dictionary key's first character is a word character. -/
theorem dict_keys_headD : (dictL.all (fun p => isWordChar (p.1.headD ' '))) = true := by
  decide

/-- A `val` hit comes from an actual dictionary entry. -/
theorem jsLookup_val_elim (t v : List Char) (h : jsLookup t = some (LookupHit.val v)) :
    ∃ p ∈ dictL, p.1 = t ∧ p.2 = v := by
  unfold jsLookup at h
  rcases hd : dictLookup t with _ | v'
  · rw [hd] at h
    by_cases hp : (t = "constructor".toList || t = "__proto__".toList) = true
    · rw [if_pos hp] at h
      exact absurd h (by simp)
    · rw [if_neg hp] at h
      exact absurd h (by simp)
  · rw [hd] at h
    injection h with h2
    injection h2 with h3
    unfold dictLookup at hd
    rcases hf : dictL.find? (fun p => p.1 == t) with _ | p
    · rw [hf] at hd
      exact absurd hd (by simp)
    · rw [hf] at hd
      simp only [Option.map_some'] at hd
      injection hd with hd2
      refine ⟨p, List.mem_of_find?_eq_some hf, ?_, ?_⟩
      · have := List.find?_some hf
        simpa using this
      · rw [hd2, h3]

/-- The token image keeps the token's class at both ends and is
non-empty. -/
theorem fTok_good (t : List Char) (b : Bool) (ht : t ≠ [])
    (hhom : ∀ c ∈ t, isWordChar c = b)
    (hnp : jsLookup (t.map jsToLower) ≠ some LookupHit.protoObj) :
    fTok t ≠ [] ∧ isWordChar ((fTok t).headD 'x') = b ∧
      isWordChar ((fTok t).getLastD ' ') = b := by
  unfold fTok
  rcases hj : jsLookup (t.map jsToLower) with _ | hit
  · refine ⟨ht, ?_, ?_⟩
    · rcases t with _ | ⟨t0, t'⟩
      · exact absurd rfl ht
      · exact hhom t0 (by simp)
    · exact hhom _ (getLastD_mem t ht)
  · cases hit with
    | protoObj => exact absurd hj hnp
    | val v =>
      dsimp only
      obtain ⟨p, hp, hp1, hp2⟩ := jsLookup_val_elim _ v hj
      have hb : b = true := by
        rcases t with _ | ⟨t0, t'⟩
        · exact absurd rfl ht
        · have hall := List.all_eq_true.1 dict_keys_headD p hp
          rw [hp1] at hall
          rw [show ((List.map jsToLower (t0 :: t')).headD ' ') = jsToLower t0 from rfl] at hall
          rw [← hhom t0 (by simp), ← jsToLower_word t0]
          exact hall
      have hvargood := List.all_eq_true.1 dict_variants_good p hp
      rw [List.all_eq_true, hp2] at hvargood
      rcases preserveCase_mem_variants t v with hv | hv | hv <;>
        rw [hv] <;>
        [have hu := hvargood (v.map jsToUpper) (by simp);
         have hu := hvargood (capitalizeJs v) (by simp);
         have hu := hvargood (v.map jsToLower) (by simp)] <;>
        (simp only [Bool.and_eq_true] at hu
         refine ⟨by simpa using hu.1.1.1, ?_, ?_⟩
         · rw [hb]
           exact hu.1.1.2
         · rw [hb]
           exact hu.1.2)

/-- Every word-boundary token of a token image misses the dictionary. -/
theorem fTok_tokens_none (t : List Char) (b : Bool) (ht : t ≠ [])
    (hhom : ∀ c ∈ t, isWordChar c = b)
    (hnp : jsLookup (t.map jsToLower) ≠ some LookupHit.protoObj) :
    ∀ u ∈ runsBy isWordChar (fTok t), jsLookup (u.map jsToLower) = none := by
  unfold fTok
  rcases hj : jsLookup (t.map jsToLower) with _ | hit
  · intro u hu
    rcases t with _ | ⟨t0, t'⟩
    · exact absurd rfl ht
    · rw [runsBy_single isWordChar t0 t' (fun a ha => by
        rw [hhom a ha, hhom t0 (by simp)])] at hu
      rcases List.mem_singleton.1 hu with rfl
      exact hj
  · cases hit with
    | protoObj => exact absurd hj hnp
    | val v =>
      dsimp only
      obtain ⟨p, hp, hp1, hp2⟩ := jsLookup_val_elim _ v hj
      have hvargood := List.all_eq_true.1 dict_variants_good p hp
      rw [List.all_eq_true, hp2] at hvargood
      intro u hu
      rcases preserveCase_mem_variants t v with hv | hv | hv <;>
        rw [hv] at hu <;>
        [have hg := hvargood (v.map jsToUpper) (by simp);
         have hg := hvargood (capitalizeJs v) (by simp);
         have hg := hvargood (v.map jsToLower) (by simp)] <;>
        (simp only [Bool.and_eq_true] at hg
         exact Option.isNone_iff_eq_none.1 (List.all_eq_true.1 hg.2 u hu))

/-- Retokenising the joined image of an alternating chain splits exactly
at the original token boundaries. -/
theorem tokenize_join_fTok (b : Bool) (rs : List (List Char))
    (hchain : AltRuns isWordChar b rs) :
    (∀ t ∈ rs, jsLookup (t.map jsToLower) ≠ some LookupHit.protoObj) →
    runsBy isWordChar (joinL (rs.map fTok)) =
      (rs.map (fun t => runsBy isWordChar (fTok t))).flatten := by
  induction hchain with
  | nil => intro _; rfl
  | cons b t rs hne hhom htail ih =>
    intro hnp
    have hgood := fTok_good t b hne hhom (hnp t (by simp))
    rcases rs with _ | ⟨t', rs'⟩
    · simp [joinL]
    · cases htail with
      | cons _ _ _ hne' hhom' htail2 =>
        have hgood' := fTok_good t' (!b) hne' hhom' (hnp t' (by simp))
        rcases hft' : fTok t' with _ | ⟨c0, tl⟩
        · exact absurd hft' hgood'.1
        · have hj : joinL ((t' :: rs').map fTok) = c0 :: (tl ++ joinL (rs'.map fTok)) := by
            simp [joinL, hft']
          have hc0 : isWordChar c0 = !b := by
            rw [← hgood'.2.1, hft']
            rfl
          have hb' : isWordChar ((fTok t).getLastD ' ') ≠ isWordChar c0 := by
            rw [hgood.2.2, hc0]
            simp
          show runsBy isWordChar (fTok t ++ joinL ((t' :: rs').map fTok)) = _
          rw [hj, runsBy_append isWordChar (fTok t) c0 (tl ++ joinL (rs'.map fTok))
            hgood.1 hb', ← hj]
          have ihr := ih (fun u hu => hnp u (by simp [hu]))
          rw [ihr]
          rfl

/-- Claim C5: spelling correction is idempotent — whenever
`spellCorrect(t)` returns normally, running it again on the produced
text returns that same text with no further changes (no token of any
case-preserved dictionary value re-tokenises to a word whose lowercase
form is a dictionary key). -/
theorem c5_spell_idempotent (s : String) (r : SpellRes)
    (h : spellCorrect s = Except.ok r) :
    spellCorrect r.text = Except.ok ⟨r.text, []⟩ := by
  unfold spellCorrect at h
  rcases hsl : spellCorrectL s.toList with e | ⟨t, chs⟩
  · rw [hsl] at h
    exact absurd h (by simp)
  · rw [hsl] at h
    injection h with h2
    unfold spellCorrectL at hsl
    obtain ⟨hout, hnp⟩ := spellTokens_ok (tokenize s.toList) t chs hsl
    have htext : r.text = String.mk t := by rw [← h2]
    obtain ⟨b, hchain⟩ := runsBy_altRuns isWordChar s.toList
    have hS2 := tokenize_join_fTok b (tokenize s.toList) hchain hnp
    have htoks_none : ∀ u ∈ tokenize t, jsLookup (u.map jsToLower) = none := by
      intro u hu
      rw [hout] at hu
      rw [show tokenize (joinL ((tokenize s.toList).map fTok)) =
        runsBy isWordChar (joinL ((tokenize s.toList).map fTok)) from rfl, hS2] at hu
      obtain ⟨lu, hlu, hulu⟩ := List.mem_flatten.1 hu
      obtain ⟨t0, ht0, hmap⟩ := List.mem_map.1 hlu
      obtain ⟨ht0ne, b', hhom'⟩ := altRuns_mem isWordChar b (tokenize s.toList) hchain t0 ht0
      rw [← hmap] at hulu
      exact fTok_tokens_none t0 b' ht0ne hhom' (hnp t0 ht0) u hulu
    have hsecond : spellCorrectL t = Except.ok (t, []) := by
      unfold spellCorrectL
      rw [spellTokens_id_of_nomatch (tokenize t) htoks_none]
      rw [show tokenize t = runsBy isWordChar t from rfl, joinL_runsBy isWordChar t]
    unfold spellCorrect
    rw [show (r.text).toList = t from by rw [htext]; rfl]
    rw [hsecond]
    rw [htext]

/-- Claim C5, witness: idempotence at `"Teh youre x"`, whose first pass
produces `"The you're x"` (note `you're` re-tokenises into three tokens,
none of which is a dictionary key). -/
theorem c5_spell_idempotent_witness :
    spellCorrect "The you're x" = Except.ok ⟨"The you're x", []⟩ := by
  have h := c5_spell_idempotent "Teh youre x"
    ⟨"The you're x",
     [⟨ChangeKind.spelling, "Teh".toList, "The".toList,
       spellMsg "Teh".toList "The".toList⟩,
      ⟨ChangeKind.spelling, "youre".toList, "you're".toList,
       spellMsg "youre".toList "you're".toList⟩]⟩ (by decide)
  exact h
